import Mathlib

/-!
Verification of the `json_go` repository: a UTF-8 byte decoder (`utf8.go`)
and a recursive-descent JSON parser (`parser.go`).

Modelling conventions (shallow embedding):
* Go `[]byte` is `List Nat` (each entry is a byte value; theorems that need
  byte-ness carry an explicit `< 256` hypothesis).
* Go `[]rune` is `List Nat` (the decoder only ever produces non-negative
  code points, so `Nat` suffices for every value that can reach the parser).
* Go `int64` arithmetic wraps; this is modelled by `wrap64 : Int → Int`
  applied after every arithmetic step, exactly where Go can overflow.
* Go `float64` is idealised as an exact rational (`FQ` below, a computable
  fraction type whose operations normalise via a fuelled gcd so that all
  values reduce inside the kernel).  The idealisation agrees with IEEE
  double arithmetic on every concrete value appearing in the theorems
  below (all of them are exactly representable and all the operations on
  them are exact).  `math.Pow10` is idealised as the exact power of ten.
* Go `string` values built by `string([]rune)` replace invalid code points
  by U+FFFD; `strFromRunes` models this, and string equality is equality
  of the resulting code-point lists.
* Loops are modelled by structurally recursive functions on an explicit
  counter.  Where the counter is exact (`SkipSpace`, `ScanInt`, the
  fraction-digit loop) the fuelled function agrees with the Go loop for
  every input.  For the mutually recursive grammar productions the
  recursion is fuelled and runs inside `Option`; `none` means "fuel
  exhausted", and the termination theorem proves the fuel supplied by the
  top-level entry points is always sufficient.
* `fmt.Sprintf` message strings are rebuilt with string append; `%d` is
  `toString`, `%q` is `goQuote`, `%c` is `charQuote`, `%#x` is `hexStr`.
-/

namespace JsonGo

/-! ### Generic helpers for modelling Go values -/

/-- The code points of a Lean string literal; used to model Go string
literals that appear as `[]rune` in the source. -/
def strRunes (s : String) : List Nat := s.toList.map Char.toNat

/-- Go `string([]rune)` conversion: invalid code points (surrogates and
values above 0x10FFFF) are replaced by U+FFFD. -/
def strFromRunes (rs : List Nat) : List Nat :=
  rs.map fun r => if 0xd800 ≤ r ∧ r ≤ 0xdfff then 0xfffd
    else if 0x10ffff < r then 0xfffd else r

/-- Two's-complement wrapping into the `int64` range, applied wherever Go
64-bit arithmetic can overflow. -/
def wrap64 (n : Int) : Int := (n + 2^63) % 2^64 - 2^63

/-- One hexadecimal digit (lower case), for Go's `%#x`. -/
def hexDigitChar (n : Nat) : Char :=
  if n < 10 then Char.ofNat (48 + n) else Char.ofNat (87 + n)

/-- Digits of `n` in base 16, most significant first (fuelled, exact for
`n < 16^fuel`). -/
def hexCore : Nat → Nat → List Char
  | 0, _ => []
  | fuel+1, n => if n = 0 then [] else hexCore fuel (n / 16) ++ [hexDigitChar (n % 16)]

/-- Go `fmt` `%#x` of a non-negative value. -/
def hexStr (n : Nat) : String :=
  if n = 0 then "0x0" else "0x" ++ String.mk (hexCore 32 n)

/-- Go `fmt` `'%c' (%#x)` fragment used in several parser errors. -/
def charQuote (c : Nat) : String :=
  "\x27" ++ String.singleton (Char.ofNat c) ++ "\x27 (" ++ hexStr c ++ ")"

/-- Go `fmt` `%q` of one character. -/
def goQuoteChar (c : Char) : String :=
  if c = '"' then "\\\"" else if c = '\\' then "\\\\" else String.singleton c

/-- Go `fmt` `%q` of a token string (all tokens in the source are printable
ASCII, so quoting and escaping the two special characters is exact). -/
def goQuote (s : String) : String :=
  "\"" ++ String.join (s.toList.map goQuoteChar) ++ "\""

/-! ### Exact rationals standing in for `float64`

A fraction in lowest terms with a positive denominator.  All operations
are structurally recursive so that concrete values reduce by `rfl`. -/

structure FQ where
  num : Int
  den : Nat
deriving DecidableEq, Repr

/-- Euclid's algorithm with explicit fuel (`fuel = m + 1` always
suffices because the first argument strictly decreases). -/
def fgcdAux : Nat → Nat → Nat → Nat
  | 0, _, n => n
  | fuel+1, m, n => if m = 0 then n else fgcdAux fuel (n % m) m

def fgcd (m n : Nat) : Nat := fgcdAux (m + 1) m n

/-- Build a fraction in lowest terms. -/
def FQ.norm (num : Int) (den : Nat) : FQ :=
  if den = 0 then ⟨0, 1⟩
  else
    let g := fgcd num.natAbs den
    if g = 0 then ⟨0, 1⟩ else ⟨num / (g : Int), den / g⟩

def FQ.ofInt (n : Int) : FQ := ⟨n, 1⟩

def FQ.add (a b : FQ) : FQ :=
  FQ.norm (a.num * (b.den : Int) + b.num * (a.den : Int)) (a.den * b.den)

def FQ.mul (a b : FQ) : FQ := FQ.norm (a.num * b.num) (a.den * b.den)

def FQ.inv (a : FQ) : FQ :=
  if a.num = 0 then ⟨0, 1⟩
  else if a.num < 0 then ⟨-(a.den : Int), a.num.natAbs⟩
  else ⟨(a.den : Int), a.num.natAbs⟩

def FQ.div (a b : FQ) : FQ := a.mul b.inv

def FQ.neg (a : FQ) : FQ := ⟨-a.num, a.den⟩

/-- Idealisation of `math.Pow10` as the exact power of ten. -/
def FQ.pow10 (e : Int) : FQ :=
  if 0 ≤ e then ⟨(10:Int)^e.toNat, 1⟩ else ⟨1, 10^(-e).toNat⟩

/-! ### `utf8.go`: the UTF-8 decoder -/

/-- `DecodingError` from `utf8.go`: byte offset, offending byte, message. -/
structure DecodingError where
  pos : Nat
  char : Nat
  msg : String
deriving DecidableEq, Repr

/-- The `fmt.Sprintf("buf not enough. req: %d, remain: %d", …)` message. -/
def bufNotEnoughMsg (req remain : Nat) : String :=
  "buf not enough. req: " ++ toString req ++ ", remain: " ++ toString remain

/-- The continuation-byte fold of `ReadCode` (`utf8.go` lines 57-60):
`code <<= 6; code |= rune(buf[i] & 0x3f)` over `n` following bytes,
starting at index `i`. -/
def foldCont (buf : List Nat) : Nat → Nat → Nat → Nat
  | _, 0, code => code
  | i, n+1, code => foldCont buf (i+1) n ((code <<< 6) ||| (buf.getD i 0 &&& 0x3f))

/-- The tail of `ReadCode` after the `switch` has fixed `next` and `mask`
(`utf8.go` lines 47-62): the buffer-length check followed by the fold. -/
def readCodeCont (buf : List Nat) (cur leading next mask : Nat) :
    Except DecodingError (Nat × Nat) :=
  let numFollowing := next - cur - 1
  let remain := buf.length - cur
  if numFollowing + 1 > remain then
    .error ⟨cur, leading, bufNotEnoughMsg (numFollowing + 1) remain⟩
  else
    .ok (foldCont buf (cur + 1) numFollowing (leading &&& mask), next)

/-- `ReadCode` from `utf8.go`: reads one code point at byte offset `cur`. -/
def ReadCode (buf : List Nat) (cur : Nat) : Except DecodingError (Nat × Nat) :=
  if buf.length ≤ cur then .error ⟨cur, 0, "no enough data"⟩
  else
    let leading := buf.getD cur 0
    if leading < 0x80 then readCodeCont buf cur leading (cur + 1) 0xff
    else if leading < 0xc0 then .error ⟨cur, leading, "unexpected leading char"⟩
    else if leading < 0xe0 then readCodeCont buf cur leading (cur + 2) 0x1f
    else if leading < 0xf0 then readCodeCont buf cur leading (cur + 3) 0x0f
    else if leading < 0xf8 then readCodeCont buf cur leading (cur + 4) 0x07
    else .error ⟨cur, leading, "bad leading char"⟩

/-- The loop of `Decode` (`utf8.go` lines 66-73) with an explicit recursion
counter.  Every successful `ReadCode` advances the cursor by at least one,
so a counter of `input.length` steps always suffices (proved below);
`none` signals an exhausted counter. -/
def DecodeAux : Nat → List Nat → Nat → Option (Except DecodingError (List Nat))
  | 0, input, cur => if cur < input.length then none else some (.ok [])
  | fuel+1, input, cur =>
    if cur < input.length then
      match ReadCode input cur with
      | .error e => some (.error e)
      | .ok (code, next) =>
        match DecodeAux fuel input next with
        | none => none
        | some (.error e) => some (.error e)
        | some (.ok rest) => some (.ok (code :: rest))
    else some (.ok [])

/-- `Decode` from `utf8.go` (the default value is unreachable: the fuel
`input.length` is proved sufficient below). -/
def Decode (input : List Nat) : Except DecodingError (List Nat) :=
  (DecodeAux input.length input 0).getD (.error ⟨0, 0, "no enough data"⟩)

/-! ### Reference UTF-8 encoder

Modelled from the spec: §8 "re-encoded to valid UTF-8 bytes by a reference
encoder" — the repository contains no encoder, so this is the standard
UTF-8 byte layout for one code point (1–4 bytes by magnitude). -/

def encodeChar (c : Nat) : List Nat :=
  if c < 0x80 then [c]
  else if c < 0x800 then [0xc0 + c / 64, 0x80 + c % 64]
  else if c < 0x10000 then [0xe0 + c / 4096, 0x80 + c / 64 % 64, 0x80 + c % 64]
  else [0xf0 + c / 262144, 0x80 + c / 4096 % 64, 0x80 + c / 64 % 64, 0x80 + c % 64]

/-- Modelled from the spec: a reference encoder for a whole code-point
sequence (concatenation of the per-code-point encodings). -/
def encodeRunes : List Nat → List Nat
  | [] => []
  | c :: rest => encodeChar c ++ encodeRunes rest

/-! ### `parser.go`: the JSON grammar parser -/

/-- `ParseError` from `parser.go`: code-point offset and message. -/
structure ParseError where
  pos : Nat
  msg : String
deriving DecidableEq, Repr

/-- The dynamic JSON value (`JsonValue`/`JsonMap`/`JsonArray`/`JsonKeyValue`
of `parser.go`).  Go's open `interface{}` union is closed into one
inductive; `kv` is the `JsonKeyValue` intermediate, `obj` carries the
association list that models the Go map (`mapInsert` below reproduces
`map` assignment semantics). -/
inductive JsonValue where
  | null
  | bool (b : Bool)
  | int (n : Int)
  | float (q : FQ)
  | str (s : List Nat)
  | arr (elts : List JsonValue)
  | obj (entries : List (List Nat × JsonValue))
  | kv (key : List Nat) (val : JsonValue)

/-- The whitespace test of `SkipSpace`'s `switch`. -/
def isSpaceRune (c : Nat) : Bool := c == 32 || c == 9 || c == 10 || c == 13

/-- The loop of `SkipSpace` with an explicit counter.  The counter
`input.length - cur` makes the function agree with the Go loop on every
input: it reaches 0 exactly when the scan position has reached the end of
the input, and then the function returns `input.length` exactly as the Go
loop does after running off the end. -/
def skipLoop (input : List Nat) : Nat → Nat → Nat
  | 0, _ => input.length
  | fuel+1, i => if isSpaceRune (input.getD i 0) then skipLoop input fuel (i+1) else i

/-- `SkipSpace` from `parser.go`. -/
def SkipSpace (input : List Nat) (cur : Nat) : Nat :=
  skipLoop input (input.length - cur) cur

/-- The matching loop of `Consume`: index of the first mismatch, if any. -/
def findMismatch (input : List Nat) : Nat → List Nat → Option Nat
  | _, [] => none
  | pos, ch :: rest =>
    if input.getD pos 0 ≠ ch then some pos else findMismatch input (pos+1) rest

/-- `Consume` from `parser.go`.  It returns the pair `(next, err)` exactly
as the Go function does: callers use the returned position even on
failure (it is then the whitespace-skipped position). -/
def Consume (input : List Nat) (cur : Nat) (tok : String) : Nat × Option ParseError :=
  let next := SkipSpace input cur
  let tokrune := strRunes tok
  if input.length - next < tokrune.length then
    (next, some ⟨next, "expect " ++ goQuote tok⟩)
  else
    match findMismatch input next tokrune with
    | some i => (next, some ⟨i, "expect " ++ goQuote tok⟩)
    | none => (next + tokrune.length, none)

/-- `IsNoEscape` from `parser.go`. -/
def IsNoEscape (ch : Nat) : Bool :=
  decide ((0x23 ≤ ch ∧ ch ≤ 0x5b) ∨ (0x5d ≤ ch ∧ ch ≤ 0x10ffff) ∨ ch = 0x20 ∨ ch = 0x21)

/-- `Hex2Num` from `parser.go`. -/
def Hex2Num (input : List Nat) (cur : Nat) : Except ParseError Nat :=
  let ch := input.getD cur 0
  if 48 ≤ ch ∧ ch ≤ 57 then .ok (ch - 48)
  else if 97 ≤ ch ∧ ch ≤ 102 then .ok (ch - 97 + 10)
  else if 65 ≤ ch ∧ ch ≤ 70 then .ok (ch - 65 + 10)
  else .error ⟨cur, "expect hex, got " ++ charQuote ch⟩

/-- The 4-digit fold of `ScanHex` (`value <<= 4; value |= d`). -/
def scanHexLoop (input : List Nat) : Nat → Nat → Nat → Except ParseError Nat
  | 0, _, value => .ok value
  | n+1, cur, value =>
    match Hex2Num input cur with
    | .error e => .error e
    | .ok d => scanHexLoop input n (cur+1) ((value <<< 4) ||| d)

/-- `ScanHex` from `parser.go`. -/
def ScanHex (input : List Nat) (cur : Nat) : Except ParseError Nat :=
  if cur + 4 > input.length then .error ⟨cur, "expect 4 hex digit"⟩
  else scanHexLoop input 4 cur 0

/-- `ParseEscape` from `parser.go` (called with the cursor on the character
directly after the backslash; returns the decoded code point and the
position after the escape). -/
def ParseEscape (input : List Nat) (cur : Nat) : Except ParseError (Nat × Nat) :=
  if input.length ≤ cur then .error ⟨cur, "string not terminated, expect escape"⟩
  else
    let ch := input.getD cur 0
    if ch = 34 ∨ ch = 92 ∨ ch = 47 then .ok (ch, cur + 1)
    else if ch = 98 then .ok (8, cur + 1)
    else if ch = 102 then .ok (12, cur + 1)
    else if ch = 110 then .ok (10, cur + 1)
    else if ch = 114 then .ok (13, cur + 1)
    else if ch = 116 then .ok (9, cur + 1)
    else if ch = 117 then
      match ScanHex input (cur + 1) with
      | .error e => .error e
      | .ok v => .ok (v, cur + 5)
    else .error ⟨cur, "bad escape char: " ++ charQuote ch⟩

/-- The scanning loop of `ParseString` (`parser.go` lines 185-206) with an
explicit counter.  Every iteration advances the cursor by at least one, so
the `input.length + 1` counter supplied by `ParseString` never runs out;
the counter-exhausted value is the loop-exit error, which is also what the
Go loop produces whenever the cursor passes the end of input. -/
def ParseStringLoop (input : List Nat) : Nat → List Nat → Nat → Except ParseError (List Nat × Nat)
  | 0, _, next => .error ⟨next, "string not terminated"⟩
  | fuel+1, val, next =>
    if next < input.length then
      let ch := input.getD next 0
      if ch = 34 then .ok (strFromRunes val, next + 1)
      else if ch = 92 then
        match ParseEscape input (next + 1) with
        | .error e => .error e
        | .ok (c2, n2) => ParseStringLoop input fuel (val ++ [c2]) n2
      else if IsNoEscape ch then ParseStringLoop input fuel (val ++ [ch]) (next + 1)
      else .error ⟨next, "unescaped char: " ++ charQuote ch⟩
    else .error ⟨next, "string not terminated"⟩

/-- `ParseString` from `parser.go`; the returned value already went through
Go's `string(val)` conversion (`strFromRunes`). -/
def ParseString (input : List Nat) (cur : Nat) : Except ParseError (List Nat × Nat) :=
  match Consume input cur "\"" with
  | (_, some e) => .error e
  | (next, none) => ParseStringLoop input (input.length + 1) [] next

/-- `IsDigit` from `parser.go`. -/
def IsDigit (ch : Nat) : Bool := decide (48 ≤ ch ∧ ch ≤ 57)

/-- The digit-accumulation loop of `ScanInt` with an explicit counter
(`input.length - cur` is exact: it reaches 0 only at end of input, where
the Go loop stops as well).  Each Go statement that can overflow `int64`
wraps via `wrap64`. -/
def scanIntLoop (input : List Nat) : Nat → Nat → Int → Int × Nat
  | 0, next, value => (value, next)
  | fuel+1, next, value =>
    if next < input.length ∧ IsDigit (input.getD next 0) = true then
      scanIntLoop input fuel (next+1)
        (wrap64 (wrap64 (value * 10) + ((input.getD next 0 : Int) - 48)))
    else (value, next)

/-- `ScanInt` from `parser.go`. -/
def ScanInt (input : List Nat) (cur : Nat) : Except ParseError (Int × Nat) :=
  if cur < input.length ∧ IsDigit (input.getD cur 0) = true then
    .ok (scanIntLoop input (input.length - cur) cur 0)
  else .error ⟨cur, "expect digits"⟩

/-- The fraction-digit loop of `ParseNum` (`frac += float64(d)/scale;
scale *= 10`), counter exact as in `scanIntLoop`. -/
def fracLoop (input : List Nat) : Nat → Nat → FQ → FQ → FQ × Nat
  | 0, next, frac, _ => (frac, next)
  | fuel+1, next, frac, scale =>
    if next < input.length ∧ IsDigit (input.getD next 0) = true then
      fracLoop input fuel (next+1)
        (frac.add ((FQ.ofInt ((input.getD next 0 : Int) - 48)).div scale))
        (scale.mul (FQ.ofInt 10))
    else (frac, next)

/-- The exponent-sign trial loop of `ParseNum` (`parser.go` lines
283-289): Go ranges over an unordered map of the two sign literals; the
model takes the candidate order as an explicit list (the result is proved
independent of that order).  A failed `Consume` still updates the cursor
to the whitespace-skipped position, exactly as in Go. -/
def signTrial : List (String × Bool) → List Nat → Nat → Bool × Nat
  | [], _, next => (false, next)
  | (tok, val) :: rest, input, next =>
    match Consume input next tok with
    | (n2, none) => (val, n2)
    | (n2, some _) => signTrial rest input n2

/-- One fixed enumeration order of the Go map literal
`map[string]bool{"+": false, "-": true}`. -/
def expSignOrder : List (String × Bool) := [("+", false), ("-", true)]

/-- The `// frac part` block of `ParseNum` (`parser.go` lines 255-272):
returns the updated `isfloat` flag, the accumulated fraction and the new
cursor. -/
def ParseNumFrac (input : List Nat) (next1 : Nat) : Except ParseError (Bool × FQ × Nat) :=
  if next1 < input.length ∧ input.getD next1 0 = 46 then
    if next1 + 1 < input.length ∧ IsDigit (input.getD (next1+1) 0) = true then
      let fr := fracLoop input (input.length - (next1+1)) (next1+1) ⟨0,1⟩ ⟨10,1⟩
      .ok (true, fr.1, fr.2)
    else .error ⟨next1+1, "expect digits"⟩
  else .ok (false, ⟨0,1⟩, next1)

/-- The `// exp part` block of `ParseNum` (`parser.go` lines 274-298):
returns the updated `isfloat` flag, the `hasexp` flag, the signed exponent
and the new cursor. -/
def ParseNumExp (input : List Nat) (isfloat0 : Bool) (next2 : Nat) :
    Except ParseError (Bool × Bool × Int × Nat) :=
  if next2 < input.length ∧ (input.getD next2 0 = 101 ∨ input.getD next2 0 = 69) then
    let st := signTrial expSignOrder input (next2 + 1)
    match ScanInt input st.2 with
    | .error e => .error e
    | .ok (e0, n4) => .ok (true, true, (if st.1 then wrap64 (-e0) else e0), n4)
  else .ok (isfloat0, false, 0, next2)

/-- `ParseNum` from `parser.go`.  The integer accumulators wrap exactly
where Go `int64` arithmetic does; the float computation is the `FQ`
idealisation of the Go `float64` computation. -/
def ParseNum (input : List Nat) (cur : Nat) : Except ParseError (JsonValue × Nat) :=
  let mr := Consume input cur "-"
  let neg := mr.2.isNone
  let next0 := mr.1
  if input.length ≤ next0 then .error ⟨next0, "expects digits, got EOS"⟩
  else
    match (if input.getD next0 0 = 48 then Except.ok ((0:Int), next0 + 1)
           else ScanInt input next0) with
    | .error e => .error e
    | .ok (whole, next1) =>
      match ParseNumFrac input next1 with
      | .error e => .error e
      | .ok (isfloat0, frac, next2) =>
        match ParseNumExp input isfloat0 next2 with
        | .error e => .error e
        | .ok (isfloat, hasexp, expnum, next3) =>
          if isfloat = false then
            .ok (.int (if neg then wrap64 (-whole) else whole), next3)
          else
            let fval := (FQ.ofInt whole).add frac
            let fval2 := if hasexp then fval.mul (FQ.pow10 expnum) else fval
            let fval3 := if neg then fval2.neg else fval2
            .ok (.float fval3, next3)

/-- The keyword trial loop of `ParseBoolNull` (`parser.go` lines 324-330):
each trial consumes from the original `cur`; a failed trial leaves the
running `next` at the failed `Consume`'s returned position (Go's named
return threading), which determines the final error position. -/
def boolNullTrial : List (String × JsonValue) → List Nat → Nat → Nat →
    Except ParseError (JsonValue × Nat)
  | [], _, _, next => .error ⟨next, "expect true|false|null"⟩
  | (lit, v) :: rest, input, cur, _next =>
    match Consume input cur lit with
    | (n2, none) => .ok (v, n2)
    | (n2, some _) => boolNullTrial rest input cur n2

/-- One fixed enumeration order of the Go map literal
`map[string]JsonValue{"true": true, "false": false, "null": nil}`. -/
def boolNullOrder : List (String × JsonValue) :=
  [("true", .bool true), ("false", .bool false), ("null", .null)]

/-- `ParseBoolNull` with an explicit candidate order (Go iterates an
unordered map); the initial `next` is Go's zero value 0. -/
def ParseBoolNullW (order : List (String × JsonValue)) (input : List Nat) (cur : Nat) :
    Except ParseError (JsonValue × Nat) :=
  boolNullTrial order input cur 0

/-- `ParseBoolNull` from `parser.go` at one fixed enumeration order. -/
def ParseBoolNull (input : List Nat) (cur : Nat) : Except ParseError (JsonValue × Nat) :=
  ParseBoolNullW boolNullOrder input cur

/-- Go map assignment `jmap[k] = v` on the association-list model:
replace the binding if the key is present, otherwise append. -/
def mapInsert : List (List Nat × JsonValue) → List Nat → JsonValue →
    List (List Nat × JsonValue)
  | [], k, v => [(k, v)]
  | (k2, v2) :: rest, k, v =>
    if k2 = k then (k, v) :: rest else (k2, v2) :: mapInsert rest k v

/-- Go map lookup on the association-list model. -/
def mapLookup : List (List Nat × JsonValue) → List Nat → Option JsonValue
  | [], _ => none
  | (k2, v2) :: rest, k => if k2 = k then some v2 else mapLookup rest k

/-- The array-to-map fold of `ParseMap` (`parser.go` lines 341-346). -/
def mapFromItems (items : List JsonValue) : List (List Nat × JsonValue) :=
  items.foldl (fun m item => match item with
    | .kv k v => mapInsert m k v
    | _ => m) []

/-- Result type of one grammar production: `none` is "recursion counter
exhausted" (proved unreachable from the entry points). -/
abbrev PResult := Except ParseError (JsonValue × Nat)

/-- A production passed as the item parser of `ParseArrayLike`
(Go's `ParseFunc`). -/
abbrev ItemP := List Nat → Nat → Option PResult

/-- `ParseKeyValue` from `parser.go`; the recursive call into `ParseAny`
is abstracted as the argument `anyP` (the fuelled knot is tied in
`ParseAnyF`). -/
def ParseKeyValue (anyP : ItemP) (input : List Nat) (cur : Nat) : Option PResult :=
  match ParseString input cur with
  | .error e => some (.error e)
  | .ok (key, n1) =>
    match Consume input n1 ":" with
    | (_, some e) => some (.error e)
    | (n2, none) =>
      match anyP input n2 with
      | none => none
      | some (.error e) => some (.error e)
      | some (.ok (v, n3)) => some (.ok (.kv key v, n3))

/-- The item loop of `ParseArrayLike` (`parser.go` lines 395-413) with an
explicit iteration counter.  Every iteration consumes at least one code
point, so the `input.length + 1` counter supplied by `ParseArrayLike`
never runs out (proved in the termination theorem). -/
def ParseALLoop (itemP : ItemP) (input : List Nat) (closeB : String) :
    Nat → List JsonValue → Nat → Option PResult
  | 0, _, _ => none
  | fuel+1, arr, next =>
    match itemP input next with
    | none => none
    | some (.error e) => some (.error e)
    | some (.ok (subval, n1)) =>
      let arr2 := arr ++ [subval]
      match Consume input n1 "," with
      | (n2, none) => ParseALLoop itemP input closeB fuel arr2 n2
      | (n2, some _) =>
        match Consume input n2 closeB with
        | (n3, some _) => some (.error ⟨n3, "expect \x27" ++ closeB ++ "\x27 or \x27,\x27"⟩)
        | (n3, none) => some (.ok (.arr arr2, n3))

/-- `ParseArrayLike` from `parser.go`. -/
def ParseArrayLike (itemP : ItemP) (input : List Nat) (cur : Nat)
    (openB closeB : String) : Option PResult :=
  match Consume input cur openB with
  | (_, some e) => some (.error e)  -- unreachable from ParseAny dispatch
  | (n0, none) =>
    match Consume input n0 closeB with
    | (n1, none) => some (.ok (.arr [], n1))
    | (n1, some _) => ParseALLoop itemP input closeB (input.length + 1) [] n1

/-- `ParseArray` from `parser.go`. -/
def ParseArray (itemP : ItemP) (input : List Nat) (cur : Nat) : Option PResult :=
  ParseArrayLike itemP input cur "[" "]"

/-- The `value.(JsonArray)`-to-`JsonMap` conversion of `ParseMap`; the
non-`arr` branch is unreachable (`ParseArrayLike` only produces arrays). -/
def mapConv : JsonValue → JsonValue
  | .arr items => .obj (mapFromItems items)
  | v => v

/-- `ParseMap` from `parser.go`. -/
def ParseMap (kvP : ItemP) (input : List Nat) (cur : Nat) : Option PResult :=
  match ParseArrayLike kvP input cur "\x7b" "\x7d" with
  | none => none
  | some (.error e) => some (.error e)
  | some (.ok (v, n)) => some (.ok (mapConv v, n))

/-- `ParseAny` from `parser.go`, fuelled: the recursion counter drops by
one on each nesting level, and the `input.length + 1` counter supplied by
the entry points is proved sufficient below. -/
def ParseAnyF : Nat → List Nat → Nat → Option PResult
  | 0, _, _ => none
  | fuel+1, input, cur =>
    let next := SkipSpace input cur
    if input.length ≤ next then some (.error ⟨next, "expect something, got EOS"⟩)
    else
      let c := input.getD next 0
      if c = 91 then ParseArray (ParseAnyF fuel) input next
      else if c = 123 then ParseMap (ParseKeyValue (ParseAnyF fuel)) input next
      else if c = 34 then
        some (match ParseString input next with
          | .error e => .error e
          | .ok (s, n) => .ok (.str s, n))
      else if (48 ≤ c ∧ c ≤ 57) ∨ c = 45 then some (ParseNum input next)
      else if c = 116 ∨ c = 102 ∨ c = 110 then some (ParseBoolNull input next)
      else some (.error ⟨next, "bad char: " ++ charQuote c⟩)

/-- `ParseRunes` from `parser.go` (fuelled core). -/
def ParseRunesCore (input : List Nat) : Option (Except ParseError JsonValue) :=
  match ParseAnyF (input.length + 1) input 0 with
  | none => none
  | some (.error e) => some (.error e)
  | some (.ok (v, next)) =>
    let n2 := SkipSpace input next
    if n2 ≠ input.length then some (.error ⟨n2, "not terminated"⟩)
    else some (.ok v)

/-- `ParseRunes` from `parser.go`; the default is unreachable because the
fuel is proved sufficient. -/
def ParseRunes (input : List Nat) : Except ParseError JsonValue :=
  (ParseRunesCore input).getD (.error ⟨0, "expect something, got EOS"⟩)

/-- The error union returned by Go's `Parse`: either a `*DecodingError`
from the UTF-8 stage or a `*ParseError` from the grammar stage. -/
inductive JErr where
  | dec (e : DecodingError)
  | parse (e : ParseError)

/-- `Parse` from `parser.go`: decode the bytes, then parse the runes. -/
def Parse (input : List Nat) : Except JErr JsonValue :=
  match Decode input with
  | .error e => .error (.dec e)
  | .ok runes =>
    match ParseRunes runes with
    | .error e => .error (.parse e)
    | .ok v => .ok v

-- sanity checks mirroring utf8_test.go
example : ReadCode (strRunes "a") 0 = .ok (97, 1) := rfl
example : Decode [0xe5, 0x95, 0x8a] = .ok [0x554a] := rfl
example : Decode [0xf4, 0x8f, 0xbf, 0xbf] = .ok [0x10ffff] := rfl
example : Decode [0x80] = .error ⟨0, 0x80, "unexpected leading char"⟩ := rfl
example : Decode [0xff] = .error ⟨0, 0xff, "bad leading char"⟩ := rfl
example : Decode [0xe0, 0x80] = .error ⟨0, 0xe0, bufNotEnoughMsg 3 2⟩ := rfl
example : Decode [0xc3, 0x41] = .ok [0xc1] := rfl

-- parser sanity checks (scratch; mirror the spec's literal scenarios)
example : ParseRunes (strRunes "null") = .ok .null := rfl
example : ParseRunes (strRunes "nul") = .error ⟨0, "expect true|false|null"⟩ := rfl
example : ParseRunes (strRunes "a") = .error ⟨0, "bad char: " ++ charQuote 97⟩ := rfl
example : ParseRunes (strRunes "[1,2.5,-3e2]") =
    .ok (.arr [.int 1, .float ⟨5, 2⟩, .float ⟨-300, 1⟩]) := rfl
example : ParseRunes (strRunes "\x7b\"k\":true,\"k\":false\x7d") =
    .ok (.obj [(strRunes "k", .bool false)]) := rfl
example : ParseRunes (strRunes "1e +2") = .ok (.float ⟨100, 1⟩) := rfl
example : ParseRunes (strRunes "\"\\u554a\"") = .ok (.str [0x554a]) := rfl
example : ParseRunes (strRunes " ") = .error ⟨1, "expect something, got EOS"⟩ := rfl
example : ParseRunes (strRunes "1x") = .error ⟨1, "not terminated"⟩ := rfl
example : Parse (strRunes "[[],[null]]") =
    .ok (.arr [.arr [], .arr [.null]]) := rfl

/-! ### Arithmetic and string helper lemmas -/

/-- Bitwise-or of a left-shifted value with a small value is addition. -/
theorem lor_shiftLeft_add : ∀ (k x r : Nat), r < 2^k → (x <<< k) ||| r = x * 2^k + r := by
  intro k
  induction k with
  | zero =>
    intro x r h
    have : r = 0 := by omega
    subst this
    simp [Nat.shiftLeft_eq]
  | succ k ih =>
    intro x r h
    have hr : Nat.bit r.bodd r.div2 = r := Nat.bit_decomp r
    have hx : x <<< (k+1) = Nat.bit false (x <<< k) := by
      simp [Nat.bit_val, Nat.shiftLeft_eq, pow_succ]
      ring
    have hdiv : r.div2 < 2^k := by
      have := Nat.div2_val r
      have h2 : (2:Nat)^(k+1) = 2^k * 2 := pow_succ 2 k
      omega
    rw [hx, ← hr, Nat.lor_bit]
    have hih := ih x r.div2 hdiv
    rw [Bool.false_or, hih, Nat.bit_val]
    have hb : (r.bodd.toNat : Nat) = r % 2 := by
      rw [Nat.mod_two_of_bodd]
    have hd2 : r.div2 = r / 2 := Nat.div2_val r
    have hmul : x * 2^(k+1) = 2 * (x * 2^k) := by
      rw [pow_succ]
      ring
    have hbit : Nat.bit r.bodd r.div2 = r := Nat.bit_decomp r
    rw [Nat.bit_val] at hbit
    omega

theorem land_63 (x : Nat) : x &&& 63 = x % 64 := by
  have := Nat.and_pow_two_sub_one_eq_mod x 6
  simpa using this

theorem land_31 (x : Nat) : x &&& 31 = x % 32 := by
  have := Nat.and_pow_two_sub_one_eq_mod x 5
  simpa using this

theorem land_15 (x : Nat) : x &&& 15 = x % 16 := by
  have := Nat.and_pow_two_sub_one_eq_mod x 4
  simpa using this

theorem land_7 (x : Nat) : x &&& 7 = x % 8 := by
  have := Nat.and_pow_two_sub_one_eq_mod x 3
  simpa using this

theorem land_255 (x : Nat) : x &&& 255 = x % 256 := by
  have := Nat.and_pow_two_sub_one_eq_mod x 8
  simpa using this

theorem bufNotEnoughMsg_length (a b : Nat) :
    (bufNotEnoughMsg a b).length = 31 + (toString a).length + (toString b).length := by
  simp only [bufNotEnoughMsg, String.length_append]
  have h1 : ("buf not enough. req: ").length = 21 := by decide
  have h2 : (", remain: ").length = 10 := by decide
  omega

theorem unexpected_ne_bufMsg (a b : Nat) :
    "unexpected leading char" ≠ bufNotEnoughMsg a b := by
  intro h
  have hl := congrArg String.length h
  rw [bufNotEnoughMsg_length] at hl
  have : ("unexpected leading char").length = 23 := by decide
  omega

theorem bad_ne_bufMsg (a b : Nat) :
    "bad leading char" ≠ bufNotEnoughMsg a b := by
  intro h
  have hl := congrArg String.length h
  rw [bufNotEnoughMsg_length] at hl
  have : ("bad leading char").length = 16 := by decide
  omega

/-! ### Decoder evaluation lemmas -/

/-- Sequence length encoded in a leading byte's high bits (the `switch` of
`ReadCode`); only meaningful for bytes that are valid leaders. -/
def leaderLen (b : Nat) : Nat :=
  if b < 0x80 then 1 else if b < 0xe0 then 2 else if b < 0xf0 then 3 else 4

theorem ReadCode_ascii (buf : List Nat) (cur : Nat) (hcur : cur < buf.length)
    (h : buf.getD cur 0 < 0x80) :
    ReadCode buf cur = .ok (buf.getD cur 0 &&& 0xff, cur + 1) := by
  simp only [ReadCode, readCodeCont]
  rw [if_neg (by omega), if_pos h, if_neg (by omega)]
  simp [foldCont]

theorem ReadCode_contByte (buf : List Nat) (cur : Nat) (hcur : cur < buf.length)
    (h1 : 0x80 ≤ buf.getD cur 0) (h2 : buf.getD cur 0 < 0xc0) :
    ReadCode buf cur = .error ⟨cur, buf.getD cur 0, "unexpected leading char"⟩ := by
  simp only [ReadCode]
  rw [if_neg (by omega), if_neg (by omega), if_pos h2]

theorem ReadCode_badLeader (buf : List Nat) (cur : Nat) (hcur : cur < buf.length)
    (h : 0xf8 ≤ buf.getD cur 0) :
    ReadCode buf cur = .error ⟨cur, buf.getD cur 0, "bad leading char"⟩ := by
  simp only [ReadCode]
  rw [if_neg (by omega), if_neg (by omega), if_neg (by omega), if_neg (by omega),
    if_neg (by omega), if_neg (by omega)]

theorem ReadCode_len2 (buf : List Nat) (cur : Nat) (hcur : cur < buf.length)
    (h1 : 0xc0 ≤ buf.getD cur 0) (h2 : buf.getD cur 0 < 0xe0) :
    ReadCode buf cur =
      if buf.length - cur < 2 then
        .error ⟨cur, buf.getD cur 0, bufNotEnoughMsg 2 (buf.length - cur)⟩
      else .ok (foldCont buf (cur+1) 1 (buf.getD cur 0 &&& 0x1f), cur + 2) := by
  simp only [ReadCode, readCodeCont]
  rw [if_neg (by omega), if_neg (by omega), if_neg (by omega), if_pos h2]
  have : cur + 2 - cur - 1 = 1 := by omega
  rw [this]

theorem ReadCode_len3 (buf : List Nat) (cur : Nat) (hcur : cur < buf.length)
    (h1 : 0xe0 ≤ buf.getD cur 0) (h2 : buf.getD cur 0 < 0xf0) :
    ReadCode buf cur =
      if buf.length - cur < 3 then
        .error ⟨cur, buf.getD cur 0, bufNotEnoughMsg 3 (buf.length - cur)⟩
      else .ok (foldCont buf (cur+1) 2 (buf.getD cur 0 &&& 0x0f), cur + 3) := by
  simp only [ReadCode, readCodeCont]
  rw [if_neg (by omega), if_neg (by omega), if_neg (by omega), if_neg (by omega), if_pos h2]
  have : cur + 3 - cur - 1 = 2 := by omega
  rw [this]

theorem ReadCode_len4 (buf : List Nat) (cur : Nat) (hcur : cur < buf.length)
    (h1 : 0xf0 ≤ buf.getD cur 0) (h2 : buf.getD cur 0 < 0xf8) :
    ReadCode buf cur =
      if buf.length - cur < 4 then
        .error ⟨cur, buf.getD cur 0, bufNotEnoughMsg 4 (buf.length - cur)⟩
      else .ok (foldCont buf (cur+1) 3 (buf.getD cur 0 &&& 0x07), cur + 4) := by
  simp only [ReadCode, readCodeCont]
  rw [if_neg (by omega), if_neg (by omega), if_neg (by omega), if_neg (by omega),
    if_neg (by omega), if_pos h2]
  have : cur + 4 - cur - 1 = 3 := by omega
  rw [this]

theorem leaderLen_two (b : Nat) (h1 : 0xc0 ≤ b) (h2 : b < 0xe0) : leaderLen b = 2 := by
  unfold leaderLen
  rw [if_neg (by omega), if_pos (by omega)]

theorem leaderLen_three (b : Nat) (h1 : 0xe0 ≤ b) (h2 : b < 0xf0) : leaderLen b = 3 := by
  unfold leaderLen
  rw [if_neg (by omega), if_neg (by omega), if_pos (by omega)]

theorem leaderLen_four (b : Nat) (h1 : 0xf0 ≤ b) : leaderLen b = 4 := by
  unfold leaderLen
  rw [if_neg (by omega), if_neg (by omega), if_neg (by omega)]

/-- C5: at an in-bounds position, `ReadCode` fails with "unexpected leading
char" iff the byte is a continuation byte (`10xxxxxx`), with "bad leading
char" iff it is `11111xxx`, and with the "buf not enough" error (reporting
required vs. remaining counts, and carrying the offset and the byte) iff
it is a valid leader whose sequence length exceeds the remaining bytes;
`Decode` on `0xE0` followed by one byte reports required 3, remaining 2. -/
theorem ReadCode_error_classes (buf : List Nat) (cur : Nat)
    (hcur : cur < buf.length) (hbyte : buf.getD cur 0 < 256) :
    (ReadCode buf cur = .error ⟨cur, buf.getD cur 0, "unexpected leading char"⟩
       ↔ (0x80 ≤ buf.getD cur 0 ∧ buf.getD cur 0 < 0xc0)) ∧
    (ReadCode buf cur = .error ⟨cur, buf.getD cur 0, "bad leading char"⟩
       ↔ 0xf8 ≤ buf.getD cur 0) ∧
    (ReadCode buf cur = .error ⟨cur, buf.getD cur 0,
        bufNotEnoughMsg (leaderLen (buf.getD cur 0)) (buf.length - cur)⟩
       ↔ ((buf.getD cur 0 < 0x80 ∨ (0xc0 ≤ buf.getD cur 0 ∧ buf.getD cur 0 < 0xf8)) ∧
           buf.length - cur < leaderLen (buf.getD cur 0))) ∧
    Decode [0xe0, 0x80] = .error ⟨0, 0xe0, bufNotEnoughMsg 3 2⟩ := by
  have hrem1 : 1 ≤ buf.length - cur := by omega
  rcases Nat.lt_or_ge (buf.getD cur 0) 0x80 with hA | hA
  · -- one-byte leader: always succeeds
    rw [ReadCode_ascii buf cur hcur hA]
    have hl : leaderLen (buf.getD cur 0) = 1 := by
      unfold leaderLen
      rw [if_pos hA]
    rw [hl]
    refine ⟨⟨fun h => by simp at h, fun h => by omega⟩,
            ⟨fun h => by simp at h, fun h => by omega⟩,
            ⟨fun h => by simp at h, fun h => by omega⟩, rfl⟩
  rcases Nat.lt_or_ge (buf.getD cur 0) 0xc0 with hB | hB
  · -- continuation byte in leading position
    rw [ReadCode_contByte buf cur hcur hA hB]
    refine ⟨⟨fun _ => ⟨hA, hB⟩, fun _ => rfl⟩,
            ⟨fun h => ?_, fun h => by omega⟩,
            ⟨fun h => ?_, fun h => by omega⟩, rfl⟩
    · simp only [Except.error.injEq, DecodingError.mk.injEq] at h
      exact absurd h.2.2 (by decide)
    · simp only [Except.error.injEq, DecodingError.mk.injEq] at h
      exact absurd h.2.2 (unexpected_ne_bufMsg _ _)
  rcases Nat.lt_or_ge (buf.getD cur 0) 0xe0 with hC | hC
  · -- two-byte leader
    have hl := leaderLen_two _ hB hC
    rw [ReadCode_len2 buf cur hcur hB hC, hl]
    by_cases hr : buf.length - cur < 2
    · rw [if_pos hr]
      refine ⟨⟨fun h => ?_, fun h => by omega⟩,
              ⟨fun h => ?_, fun h => by omega⟩,
              ⟨fun _ => ⟨Or.inr ⟨hB, by omega⟩, hr⟩, fun _ => rfl⟩, rfl⟩
      · simp only [Except.error.injEq, DecodingError.mk.injEq] at h
        exact absurd h.2.2.symm (unexpected_ne_bufMsg _ _)
      · simp only [Except.error.injEq, DecodingError.mk.injEq] at h
        exact absurd h.2.2.symm (bad_ne_bufMsg _ _)
    · rw [if_neg hr]
      refine ⟨⟨fun h => by simp at h, fun h => by omega⟩,
              ⟨fun h => by simp at h, fun h => by omega⟩,
              ⟨fun h => by simp at h, fun h => by omega⟩, rfl⟩
  rcases Nat.lt_or_ge (buf.getD cur 0) 0xf0 with hD | hD
  · -- three-byte leader
    have hl := leaderLen_three _ hC hD
    rw [ReadCode_len3 buf cur hcur hC hD, hl]
    by_cases hr : buf.length - cur < 3
    · rw [if_pos hr]
      refine ⟨⟨fun h => ?_, fun h => by omega⟩,
              ⟨fun h => ?_, fun h => by omega⟩,
              ⟨fun _ => ⟨Or.inr ⟨by omega, by omega⟩, hr⟩, fun _ => rfl⟩, rfl⟩
      · simp only [Except.error.injEq, DecodingError.mk.injEq] at h
        exact absurd h.2.2.symm (unexpected_ne_bufMsg _ _)
      · simp only [Except.error.injEq, DecodingError.mk.injEq] at h
        exact absurd h.2.2.symm (bad_ne_bufMsg _ _)
    · rw [if_neg hr]
      refine ⟨⟨fun h => by simp at h, fun h => by omega⟩,
              ⟨fun h => by simp at h, fun h => by omega⟩,
              ⟨fun h => by simp at h, fun h => by omega⟩, rfl⟩
  rcases Nat.lt_or_ge (buf.getD cur 0) 0xf8 with hE | hE
  · -- four-byte leader
    have hl := leaderLen_four _ hD
    rw [ReadCode_len4 buf cur hcur hD hE, hl]
    by_cases hr : buf.length - cur < 4
    · rw [if_pos hr]
      refine ⟨⟨fun h => ?_, fun h => by omega⟩,
              ⟨fun h => ?_, fun h => by omega⟩,
              ⟨fun _ => ⟨Or.inr ⟨by omega, hE⟩, hr⟩, fun _ => rfl⟩, rfl⟩
      · simp only [Except.error.injEq, DecodingError.mk.injEq] at h
        exact absurd h.2.2.symm (unexpected_ne_bufMsg _ _)
      · simp only [Except.error.injEq, DecodingError.mk.injEq] at h
        exact absurd h.2.2.symm (bad_ne_bufMsg _ _)
    · rw [if_neg hr]
      refine ⟨⟨fun h => by simp at h, fun h => by omega⟩,
              ⟨fun h => by simp at h, fun h => by omega⟩,
              ⟨fun h => by simp at h, fun h => by omega⟩, rfl⟩
  · -- invalid leader
    rw [ReadCode_badLeader buf cur hcur hE]
    have hl := leaderLen_four (buf.getD cur 0) (by omega)
    rw [hl]
    refine ⟨⟨fun h => ?_, fun h => by omega⟩,
            ⟨fun _ => hE, fun _ => rfl⟩,
            ⟨fun h => ?_, fun h => by omega⟩, rfl⟩
    · simp only [Except.error.injEq, DecodingError.mk.injEq] at h
      exact absurd h.2.2 (by decide)
    · simp only [Except.error.injEq, DecodingError.mk.injEq] at h
      exact absurd h.2.2 (bad_ne_bufMsg _ _)

theorem ReadCode_error_classes_witness :
    ReadCode [0x80] 0 = .error ⟨0, 0x80, "unexpected leading char"⟩ :=
  (ReadCode_error_classes [0x80] 0 (by decide) (by decide)).1.2 (by decide)

/-- C10: `ReadCode` never validates continuation bytes: whenever the byte
at an in-bounds position is a valid multi-byte leader and enough bytes
remain, decoding succeeds (folding the low 6 bits of each following byte
via `foldCont`) no matter what the following bytes are; in particular
`Decode [0xC3, 0x41]` succeeds with code point 0xC1 even though 0x41 is
not a continuation byte. -/
theorem ReadCode_continuation_unchecked :
    (∀ (buf : List Nat) (cur : Nat), cur < buf.length →
      0xc0 ≤ buf.getD cur 0 → buf.getD cur 0 < 0xf8 →
      leaderLen (buf.getD cur 0) ≤ buf.length - cur →
      ∃ code, ReadCode buf cur = .ok (code, cur + leaderLen (buf.getD cur 0))) ∧
    Decode [0xc3, 0x41] = .ok [0xc1] := by
  refine ⟨?_, rfl⟩
  intro buf cur hcur h1 h2 hrem
  rcases Nat.lt_or_ge (buf.getD cur 0) 0xe0 with hC | hC
  · have hl := leaderLen_two _ h1 hC
    rw [hl] at hrem ⊢
    rw [ReadCode_len2 buf cur hcur h1 hC, if_neg (by omega)]
    exact ⟨_, rfl⟩
  rcases Nat.lt_or_ge (buf.getD cur 0) 0xf0 with hD | hD
  · have hl := leaderLen_three _ hC hD
    rw [hl] at hrem ⊢
    rw [ReadCode_len3 buf cur hcur hC hD, if_neg (by omega)]
    exact ⟨_, rfl⟩
  · have hl := leaderLen_four _ hD
    rw [hl] at hrem ⊢
    rw [ReadCode_len4 buf cur hcur hD h2, if_neg (by omega)]
    exact ⟨_, rfl⟩

theorem ReadCode_continuation_unchecked_witness :
    ∃ code, ReadCode [0xc3, 0x41] 0 = .ok (code, 0 + leaderLen ((([0xc3, 0x41] : List Nat)).getD 0 0)) :=
  ReadCode_continuation_unchecked.1 [0xc3, 0x41] 0 (by decide) (by decide) (by decide) (by decide)

/-! ### C1: encoder/decoder round trip -/

theorem getD_drop_eq (buf : List Nat) (cur i : Nat) :
    (buf.drop cur).getD i 0 = buf.getD (cur + i) 0 := by
  simp [List.getD_eq_getElem?_getD, List.getElem?_drop]

theorem encodeChar_length_pos (c : Nat) : 1 ≤ (encodeChar c).length := by
  unfold encodeChar
  split_ifs <;> simp

theorem lor64 (x r : Nat) (h : r < 64) : (x <<< 6) ||| r = x * 64 + r := by
  have h2 : (2:Nat)^6 = 64 := by norm_num
  rw [lor_shiftLeft_add 6 x r (by rw [h2]; exact h), h2]

/-- `ReadCode` inverts `encodeChar` at any position whose suffix starts
with the encoding of `c`. -/
theorem ReadCode_encodeChar (c : Nat) (buf tail : List Nat) (cur : Nat)
    (hc : c ≤ 0x10ffff) (hdrop : buf.drop cur = encodeChar c ++ tail) :
    ReadCode buf cur = .ok (c, cur + (encodeChar c).length) := by
  have hlen : (buf.drop cur).length = buf.length - cur := List.length_drop cur buf
  rcases Nat.lt_or_ge c 0x80 with h1 | h1
  · -- 1 byte
    have henc : encodeChar c = [c] := by
      unfold encodeChar
      rw [if_pos h1]
    rw [henc] at hdrop ⊢
    have hb0 : buf.getD (cur + 0) 0 = c := by
      rw [← getD_drop_eq, hdrop]
      rfl
    have hrem : buf.length - cur = 1 + tail.length := by
      rw [← hlen, hdrop]
      simp
      omega
    have hcur : cur < buf.length := by omega
    rw [Nat.add_zero] at hb0
    rw [ReadCode_ascii buf cur hcur (by omega)]
    rw [hb0, land_255]
    have hval : c % 256 = c := by omega
    rw [hval]
    simp
  rcases Nat.lt_or_ge c 0x800 with h2 | h2
  · -- 2 bytes
    have henc : encodeChar c = [0xc0 + c / 64, 0x80 + c % 64] := by
      unfold encodeChar
      rw [if_neg (by omega), if_pos h2]
    rw [henc] at hdrop ⊢
    have hb0 : buf.getD (cur + 0) 0 = 0xc0 + c / 64 := by
      rw [← getD_drop_eq, hdrop]
      rfl
    have hb1 : buf.getD (cur + 1) 0 = 0x80 + c % 64 := by
      rw [← getD_drop_eq, hdrop]
      rfl
    rw [Nat.add_zero] at hb0
    have hrem : buf.length - cur = 2 + tail.length := by
      rw [← hlen, hdrop]
      simp
      omega
    have hcur : cur < buf.length := by omega
    have hdiv : c / 64 < 32 := by omega
    rw [ReadCode_len2 buf cur hcur (by omega) (by omega), if_neg (by omega)]
    simp only [foldCont, hb0, hb1]
    rw [land_31, land_63]
    have hm : (0xc0 + c / 64) % 32 = c / 64 := by omega
    have hm2 : (0x80 + c % 64) % 64 = c % 64 := by omega
    rw [hm, hm2, lor64 _ _ (by omega)]
    have hval : c / 64 * 64 + c % 64 = c := by omega
    rw [hval]
    simp
  rcases Nat.lt_or_ge c 0x10000 with h3 | h3
  · -- 3 bytes
    have henc : encodeChar c = [0xe0 + c / 4096, 0x80 + c / 64 % 64, 0x80 + c % 64] := by
      unfold encodeChar
      rw [if_neg (by omega), if_neg (by omega), if_pos h3]
    rw [henc] at hdrop ⊢
    have hb0 : buf.getD (cur + 0) 0 = 0xe0 + c / 4096 := by
      rw [← getD_drop_eq, hdrop]
      rfl
    have hb1 : buf.getD (cur + 1) 0 = 0x80 + c / 64 % 64 := by
      rw [← getD_drop_eq, hdrop]
      rfl
    have hb2 : buf.getD (cur + 2) 0 = 0x80 + c % 64 := by
      rw [← getD_drop_eq, hdrop]
      rfl
    rw [Nat.add_zero] at hb0
    have hrem : buf.length - cur = 3 + tail.length := by
      rw [← hlen, hdrop]
      simp
      omega
    have hcur : cur < buf.length := by omega
    have hdiv : c / 4096 < 16 := by omega
    rw [ReadCode_len3 buf cur hcur (by omega) (by omega), if_neg (by omega)]
    simp only [foldCont, hb0, hb1, hb2]
    rw [land_15, land_63, land_63]
    have hm : (0xe0 + c / 4096) % 16 = c / 4096 := by omega
    have hm1 : (0x80 + c / 64 % 64) % 64 = c / 64 % 64 := by omega
    have hm2 : (0x80 + c % 64) % 64 = c % 64 := by omega
    rw [hm, hm1, hm2, lor64 _ _ (by omega), lor64 _ _ (by omega)]
    have hval : (c / 4096 * 64 + c / 64 % 64) * 64 + c % 64 = c := by omega
    rw [hval]
    simp
  · -- 4 bytes
    have henc : encodeChar c =
        [0xf0 + c / 262144, 0x80 + c / 4096 % 64, 0x80 + c / 64 % 64, 0x80 + c % 64] := by
      unfold encodeChar
      rw [if_neg (by omega), if_neg (by omega), if_neg (by omega)]
    rw [henc] at hdrop ⊢
    have hb0 : buf.getD (cur + 0) 0 = 0xf0 + c / 262144 := by
      rw [← getD_drop_eq, hdrop]
      rfl
    have hb1 : buf.getD (cur + 1) 0 = 0x80 + c / 4096 % 64 := by
      rw [← getD_drop_eq, hdrop]
      rfl
    have hb2 : buf.getD (cur + 2) 0 = 0x80 + c / 64 % 64 := by
      rw [← getD_drop_eq, hdrop]
      rfl
    have hb3 : buf.getD (cur + 3) 0 = 0x80 + c % 64 := by
      rw [← getD_drop_eq, hdrop]
      rfl
    rw [Nat.add_zero] at hb0
    have hrem : buf.length - cur = 4 + tail.length := by
      rw [← hlen, hdrop]
      simp
      omega
    have hcur : cur < buf.length := by omega
    have hdiv : c / 262144 < 8 := by omega
    rw [ReadCode_len4 buf cur hcur (by omega) (by omega), if_neg (by omega)]
    simp only [foldCont, hb0, hb1, hb2, hb3]
    rw [land_7, land_63, land_63, land_63]
    have hm : (0xf0 + c / 262144) % 8 = c / 262144 := by omega
    have hm1 : (0x80 + c / 4096 % 64) % 64 = c / 4096 % 64 := by omega
    have hm2 : (0x80 + c / 64 % 64) % 64 = c / 64 % 64 := by omega
    have hm3 : (0x80 + c % 64) % 64 = c % 64 := by omega
    rw [hm, hm1, hm2, hm3, lor64 _ _ (by omega), lor64 _ _ (by omega), lor64 _ _ (by omega)]
    have hval : ((c / 262144 * 64 + c / 4096 % 64) * 64 + c / 64 % 64) * 64 + c % 64 = c := by
      omega
    rw [hval]
    simp

theorem DecodeAux_encodeRunes : ∀ (l : List Nat) (buf : List Nat) (cur fuel : Nat),
    (∀ c ∈ l, c ≤ 0x10ffff) → buf.drop cur = encodeRunes l →
    buf.length - cur ≤ fuel →
    DecodeAux fuel buf cur = some (.ok l) := by
  intro l
  induction l with
  | nil =>
    intro buf cur fuel _ hdrop _
    have hdrop2 : buf.drop cur = [] := hdrop
    have hle : buf.length ≤ cur := by
      rwa [List.drop_eq_nil_iff] at hdrop2
    match fuel with
    | 0 =>
      rw [DecodeAux, if_neg (by omega)]
    | fuel + 1 =>
      rw [DecodeAux, if_neg (by omega)]
  | cons c rest ih =>
    intro buf cur fuel hcp hdrop hfuel
    have hdrop2 : buf.drop cur = encodeChar c ++ encodeRunes rest := hdrop
    have hrc := ReadCode_encodeChar c buf (encodeRunes rest) cur
      (hcp c (by simp)) hdrop2
    have hk := encodeChar_length_pos c
    have hlen : (buf.drop cur).length = buf.length - cur := List.length_drop cur buf
    have hcur : cur < buf.length := by
      rw [hdrop2] at hlen
      simp only [List.length_append] at hlen
      omega
    match fuel with
    | 0 => omega
    | fuel + 1 =>
      have hnext : buf.drop (cur + (encodeChar c).length) = encodeRunes rest := by
        have hstep : buf.drop (cur + (encodeChar c).length)
            = (buf.drop cur).drop (encodeChar c).length := (List.drop_drop _ _ _).symm
        rw [hstep, hdrop2, List.drop_left]
      have htail := ih buf (cur + (encodeChar c).length) fuel
        (fun x hx => hcp x (by simp [hx])) hnext (by omega)
      rw [DecodeAux, if_pos hcur]
      simp only [hrc, htail]

/-- C1: decoding the reference UTF-8 encoding of any sequence of code
points in [0, 0x10FFFF] recovers exactly the original sequence, with no
error. -/
theorem decode_encode_roundtrip (l : List Nat) (h : ∀ c ∈ l, c ≤ 0x10ffff) :
    Decode (encodeRunes l) = .ok l := by
  unfold Decode
  rw [DecodeAux_encodeRunes l (encodeRunes l) 0 (encodeRunes l).length h
    (by simp) (by omega)]
  rfl

theorem decode_encode_roundtrip_witness :
    Decode (encodeRunes [0x41, 0x554a, 0x10ffff]) = .ok [0x41, 0x554a, 0x10ffff] :=
  decode_encode_roundtrip [0x41, 0x554a, 0x10ffff] (by decide)


/-! ### C3: the string production's character classes -/

/-- C3: one step of the string-production loop on a code point that is
neither `"` nor `\`: the code point is appended literally exactly when it
lies in [0x23, 0x5B] ∪ [0x5D, 0x10FFFF] ∪ {0x20, 0x21} (this set is
exactly `IsNoEscape`); any other such code point fails with the
"unescaped char" error; and reaching the end of input before a closing
quote fails with "string not terminated". -/
theorem parseString_noEscape_charClass :
    (∀ (ch : Nat),
      (IsNoEscape ch = true ↔
        ((0x23 ≤ ch ∧ ch ≤ 0x5b) ∨ (0x5d ≤ ch ∧ ch ≤ 0x10ffff) ∨ ch = 0x20 ∨ ch = 0x21))) ∧
    (∀ (input : List Nat) (fuel : Nat) (val : List Nat) (next : Nat),
      next < input.length →
      input.getD next 0 ≠ 0x22 → input.getD next 0 ≠ 0x5c →
      input.getD next 0 ≤ 0x10ffff →
      ((IsNoEscape (input.getD next 0) = true →
        ParseStringLoop input (fuel+1) val next
          = ParseStringLoop input fuel (val ++ [input.getD next 0]) (next+1)) ∧
       (IsNoEscape (input.getD next 0) = false →
        ParseStringLoop input (fuel+1) val next
          = .error ⟨next, "unescaped char: " ++ charQuote (input.getD next 0)⟩))) ∧
    (∀ (input : List Nat) (fuel : Nat) (val : List Nat) (next : Nat),
      input.length ≤ next →
      ParseStringLoop input fuel val next = .error ⟨next, "string not terminated"⟩) := by
  refine ⟨?_, ?_, ?_⟩
  · intro ch
    simp [IsNoEscape]
  · intro input fuel val next hlt h34 h92 _
    constructor
    · intro hesc
      rw [ParseStringLoop, if_pos hlt, if_neg h34, if_neg h92, if_pos hesc]
    · intro hesc
      have hesc2 : IsNoEscape (input[next]?.getD 0) = false := by
        rw [← List.getD_eq_getElem?_getD]
        exact hesc
      rw [ParseStringLoop, if_pos hlt, if_neg h34, if_neg h92, if_neg (by simp [hesc2])]
  · intro input fuel val next hge
    match fuel with
    | 0 => rw [ParseStringLoop]
    | fuel + 1 => rw [ParseStringLoop, if_neg (by omega)]

theorem parseString_noEscape_charClass_witness :
    ParseStringLoop [97] 1 [] 0 = ParseStringLoop [97] 0 ([] ++ [([97] : List Nat).getD 0 0]) 1 :=
  ((parseString_noEscape_charClass.2.1 [97] 0 [] 0 (by decide) (by decide)
    (by decide) (by decide)).1 (by decide))

/-! ### C4: duplicate object keys collapse to the last occurrence -/

/-- The value of the last key-value item carrying the given key (the
spec's "most recent occurrence"); stated from the spec's words. -/
def lastKeyValue (items : List JsonValue) (k : List Nat) : Option JsonValue :=
  items.reverse.findSome? fun item => match item with
    | .kv k2 v => if k2 = k then some v else none
    | _ => none

theorem mapLookup_mapInsert (m : List (List Nat × JsonValue)) (k2 k : List Nat)
    (v : JsonValue) :
    mapLookup (mapInsert m k2 v) k = if k2 = k then some v else mapLookup m k := by
  induction m with
  | nil =>
    by_cases h : k2 = k
    · rw [if_pos h]
      simp [mapInsert, mapLookup, h]
    · rw [if_neg h]
      simp [mapInsert, mapLookup, h]
  | cons p rest ih =>
    obtain ⟨pk, pv⟩ := p
    by_cases hpk : pk = k2
    · subst hpk
      simp only [mapInsert, if_pos rfl]
      by_cases h : pk = k
      · simp [mapLookup, h]
      · simp [mapLookup, h]
    · simp only [mapInsert, if_neg hpk]
      by_cases hp : pk = k
      · subst hp
        have hne : ¬ k2 = pk := fun hh => hpk hh.symm
        by_cases hq : pk = k2
        · exact absurd hq hpk
        · simp [mapLookup, if_neg hne, hq, ih]
      · simp [mapLookup, if_neg hp, ih]

theorem mapFromItems_fold (items : List JsonValue) :
    ∀ (m : List (List Nat × JsonValue)) (k : List Nat),
      mapLookup (items.foldl (fun m item => match item with
        | .kv k2 v => mapInsert m k2 v
        | _ => m) m) k =
      match lastKeyValue items k with
      | some v => some v
      | none => mapLookup m k := by
  induction items with
  | nil =>
    intro m k
    simp [lastKeyValue]
  | cons item rest ih =>
    intro m k
    have hrev : (item :: rest).reverse = rest.reverse ++ [item] := by simp
    simp only [List.foldl_cons, lastKeyValue, hrev, List.findSome?_append]
    rw [ih]
    rcases hl : rest.reverse.findSome? (fun it => match it with
      | JsonValue.kv k2 v => if k2 = k then some v else none
      | _ => none) with _ | v
    · simp only [lastKeyValue] at *
      rw [hl]
      match item with
      | .null | .bool _ | .int _ | .float _ | .str _ | .arr _ | .obj _ =>
        simp [List.findSome?]
      | .kv k2 v2 =>
        simp only [List.findSome?]
        by_cases h : k2 = k
        · simp [h, mapLookup_mapInsert]
        · simp [h, mapLookup_mapInsert]
    · simp only [lastKeyValue] at *
      rw [hl]
      simp

/-- C4: the object built by `ParseMap`'s fold maps every key to the value
of its last occurrence in the parsed key-value list; in particular
parsing `{"k":true,"k":false}` yields an object mapping "k" to `false`. -/
theorem parseMap_lastKeyWins :
    (∀ (items : List JsonValue) (k : List Nat) (v : JsonValue),
        lastKeyValue items k = some v →
        mapLookup (mapFromItems items) k = some v) ∧
    Parse (strRunes "\x7b\"k\":true,\"k\":false\x7d")
      = .ok (.obj [(strRunes "k", .bool false)]) ∧
    mapLookup [(strRunes "k", .bool false)] (strRunes "k") = some (.bool false) := by
  refine ⟨?_, rfl, rfl⟩
  intro items k v hlast
  have hfold := mapFromItems_fold items [] k
  rw [hlast] at hfold
  exact hfold

theorem parseMap_lastKeyWins_witness :
    mapLookup (mapFromItems [.kv [107] (.bool true), .kv [107] (.bool false)]) [107]
      = some (.bool false) :=
  parseMap_lastKeyWins.1 [.kv [107] (.bool true), .kv [107] (.bool false)] [107]
    (.bool false) rfl

/-! ### C9: whitespace inside a numeric literal -/

/-- C9 counterexample: the claim says `"1e +2"` (whitespace between the
exponent marker and its sign) is rejected with a ParseError; in fact the
sign is consumed through `Consume`, which skips whitespace first, so the
input parses successfully as the float 100. -/
theorem numToken_whitespace_counterexample :
    ParseRunes (strRunes "1e +2") = .ok (.float ⟨100, 1⟩) := rfl

/-- C9 (amended): a numeric literal is contiguous except after the
exponent marker: no whitespace is allowed between the leading minus and
the digits, inside the integer part, around the decimal point, or between
the exponent sign and its digits — but whitespace IS skipped between the
`e`/`E` marker and the exponent sign or digits, because the sign tokens
are consumed via the whitespace-skipping `Consume`; hence `"1e +2"` and
`"1e 2"` parse as Float 100.0 while the other gaps are rejected. -/
theorem numToken_whitespace_amended :
    ParseRunes (strRunes "1e +2") = .ok (.float ⟨100, 1⟩) ∧
    ParseRunes (strRunes "1e 2") = .ok (.float ⟨100, 1⟩) ∧
    ParseRunes (strRunes "- 1") = .error ⟨1, "expect digits"⟩ ∧
    ParseRunes (strRunes "1. 5") = .error ⟨2, "expect digits"⟩ ∧
    ParseRunes (strRunes "1 .5") = .error ⟨2, "not terminated"⟩ ∧
    ParseRunes (strRunes "1 e2") = .error ⟨2, "not terminated"⟩ ∧
    ParseRunes (strRunes "1e+ 2") = .error ⟨3, "expect digits"⟩ :=
  ⟨rfl, rfl, rfl, rfl, rfl, rfl, rfl⟩


/-! ### `SkipSpace` and `Consume` infrastructure -/

theorem getD_mem (input : List Nat) (i : Nat) (h : i < input.length) :
    input.getD i 0 ∈ input := by
  rw [input.getD_eq_getElem 0 h]
  exact List.getElem_mem h

theorem skipLoop_spec (input : List Nat) :
    ∀ (fuel cur : Nat), fuel = input.length - cur →
      (skipLoop input fuel cur ≤ input.length) ∧
      (cur ≤ input.length → cur ≤ skipLoop input fuel cur) ∧
      (skipLoop input fuel cur = input.length ∨
        (skipLoop input fuel cur < input.length ∧
         isSpaceRune (input.getD (skipLoop input fuel cur) 0) = false)) ∧
      (∀ j, cur ≤ j → j < skipLoop input fuel cur →
        isSpaceRune (input.getD j 0) = true) := by
  intro fuel
  induction fuel with
  | zero =>
    intro cur hf
    rw [skipLoop]
    exact ⟨le_refl _, fun _ => by omega, Or.inl rfl, fun j hj1 hj2 => by omega⟩
  | succ fuel ih =>
    intro cur hf
    have hcur : cur < input.length := by omega
    rw [skipLoop]
    by_cases hws : isSpaceRune (input.getD cur 0) = true
    · rw [if_pos hws]
      have hrec := ih (cur+1) (by omega)
      refine ⟨hrec.1, fun _ => ?_, hrec.2.2.1, fun j hj1 hj2 => ?_⟩
      · have := hrec.2.1 (by omega)
        omega
      · by_cases hj : j = cur
        · subst hj
          exact hws
        · exact hrec.2.2.2 j (by omega) hj2
    · rw [if_neg hws]
      exact ⟨by omega, fun _ => le_refl _, Or.inr ⟨hcur, by simpa using hws⟩,
        fun j hj1 hj2 => by omega⟩

theorem SkipSpace_le (input : List Nat) (cur : Nat) :
    SkipSpace input cur ≤ input.length :=
  (skipLoop_spec input (input.length - cur) cur rfl).1

theorem SkipSpace_ge (input : List Nat) (cur : Nat) (h : cur ≤ input.length) :
    cur ≤ SkipSpace input cur :=
  (skipLoop_spec input (input.length - cur) cur rfl).2.1 h

theorem SkipSpace_stop (input : List Nat) (cur : Nat) :
    SkipSpace input cur = input.length ∨
      (SkipSpace input cur < input.length ∧
       isSpaceRune (input.getD (SkipSpace input cur) 0) = false) :=
  (skipLoop_spec input (input.length - cur) cur rfl).2.2.1

theorem SkipSpace_ws (input : List Nat) (cur : Nat) :
    ∀ j, cur ≤ j → j < SkipSpace input cur → isSpaceRune (input.getD j 0) = true :=
  (skipLoop_spec input (input.length - cur) cur rfl).2.2.2

theorem SkipSpace_idem (input : List Nat) (cur : Nat) :
    SkipSpace input (SkipSpace input cur) = SkipSpace input cur := by
  rcases SkipSpace_stop input cur with h | ⟨hlt, hws⟩
  · rw [h]
    show skipLoop input (input.length - input.length) input.length = input.length
    rw [Nat.sub_self, skipLoop]
  · show skipLoop input (input.length - SkipSpace input cur) (SkipSpace input cur)
      = SkipSpace input cur
    obtain ⟨k, hk⟩ : ∃ k, input.length - SkipSpace input cur = k + 1 :=
      ⟨input.length - SkipSpace input cur - 1, by omega⟩
    have hws2 : isSpaceRune (input[SkipSpace input cur]?.getD 0) = false := by
      rw [← List.getD_eq_getElem?_getD]
      exact hws
    rw [hk, skipLoop, if_neg (by simp [hws2])]

theorem SkipSpace_all (input : List Nat)
    (h : ∀ b ∈ input, isSpaceRune b = true) (cur : Nat) :
    SkipSpace input cur = input.length := by
  rcases SkipSpace_stop input cur with hs | ⟨hlt, hws⟩
  · exact hs
  · have := h _ (getD_mem input _ hlt)
    rw [this] at hws
    exact absurd hws (by simp)

theorem findMismatch_none (input : List Nat) :
    ∀ (tokrune : List Nat) (pos : Nat), findMismatch input pos tokrune = none →
      ∀ i, i < tokrune.length → input.getD (pos + i) 0 = tokrune.getD i 0 := by
  intro tokrune
  induction tokrune with
  | nil =>
    intro pos _ i hi
    simp at hi
  | cons ch rest ih =>
    intro pos h i hi
    rw [findMismatch] at h
    by_cases hc : input.getD pos 0 ≠ ch
    · rw [if_pos hc] at h
      exact absurd h (by simp)
    · rw [if_neg hc] at h
      push_neg at hc
      match i with
      | 0 => simpa using hc
      | i+1 =>
        have := ih (pos+1) h i (by simpa using hi)
        rw [show pos + (i+1) = (pos + 1) + i by omega]
        simpa using this

theorem Consume_ok (input : List Nat) (cur : Nat) (tok : String) (n : Nat)
    (h : Consume input cur tok = (n, none)) :
    n = SkipSpace input cur + (strRunes tok).length ∧
    (strRunes tok).length ≤ input.length - SkipSpace input cur ∧
    (∀ i, i < (strRunes tok).length →
      input.getD (SkipSpace input cur + i) 0 = (strRunes tok).getD i 0) := by
  simp only [Consume] at h
  split at h
  · exact absurd (congrArg Prod.snd h) (by simp)
  · split at h
    · exact absurd (congrArg Prod.snd h) (by simp)
    · rename_i hlen hmis
      have hn := congrArg Prod.fst h
      simp at hn
      exact ⟨hn.symm, by omega, findMismatch_none input _ _ hmis⟩

theorem Consume_fail (input : List Nat) (cur : Nat) (tok : String) (n : Nat)
    (e : ParseError) (h : Consume input cur tok = (n, some e)) :
    n = SkipSpace input cur := by
  simp only [Consume] at h
  split at h
  · have := congrArg Prod.fst h
    simpa using this.symm
  · split at h
    · have := congrArg Prod.fst h
      simpa using this.symm
    · exact absurd (congrArg Prod.snd h) (by simp)

theorem Consume_skip (input : List Nat) (cur : Nat) (tok : String) :
    Consume input (SkipSpace input cur) tok = Consume input cur tok := by
  simp only [Consume, SkipSpace_idem]

theorem Consume_ok_first (input : List Nat) (cur : Nat) (tok : String) (n : Nat)
    (h : Consume input cur tok = (n, none)) (hne : 0 < (strRunes tok).length) :
    input.getD (SkipSpace input cur) 0 = (strRunes tok).getD 0 0 := by
  have := (Consume_ok input cur tok n h).2.2 0 hne
  simpa using this

/-! ### C6: empty input and trailing garbage -/

theorem DecodeAux_ascii (input : List Nat) (hall : ∀ b ∈ input, b < 0x80) :
    ∀ (fuel cur : Nat), input.length - cur ≤ fuel →
      DecodeAux fuel input cur = some (.ok (input.drop cur)) := by
  intro fuel
  induction fuel with
  | zero =>
    intro cur hle
    rw [DecodeAux, if_neg (by omega), List.drop_eq_nil_of_le (by omega)]
  | succ fuel ih =>
    intro cur hle
    by_cases hcur : cur < input.length
    · have hb : input.getD cur 0 < 0x80 := hall _ (getD_mem input cur hcur)
      have hrc := ReadCode_ascii input cur hcur hb
      have hmod : input.getD cur 0 &&& 255 = input.getD cur 0 := by
        rw [land_255]
        omega
      rw [hmod] at hrc
      have hrec := ih (cur+1) (by omega)
      rw [DecodeAux, if_pos hcur]
      simp only [hrc, hrec]
      rw [List.drop_eq_getElem_cons hcur, input.getD_eq_getElem 0 hcur]
    · rw [DecodeAux, if_neg hcur, List.drop_eq_nil_of_le (by omega)]

theorem Decode_ascii (input : List Nat) (hall : ∀ b ∈ input, b < 0x80) :
    Decode input = .ok input := by
  unfold Decode
  rw [DecodeAux_ascii input hall input.length 0 (by omega)]
  simp

/-- C6: `Parse` on input consisting only of whitespace (in particular,
empty input) fails with the "expect something, got EOS" error at end of
input; and whenever the top-level value parse succeeds but skipping
trailing whitespace does not reach the end of input, `ParseRunes` fails
with the "not terminated" error at the first trailing non-whitespace
code point. -/
theorem parse_empty_trailing_errors :
    (∀ (input : List Nat), (∀ b ∈ input, b = 32 ∨ b = 9 ∨ b = 10 ∨ b = 13) →
      Parse input = .error (.parse ⟨input.length, "expect something, got EOS"⟩)) ∧
    (∀ (input : List Nat) (v : JsonValue) (next : Nat),
      ParseAnyF (input.length + 1) input 0 = some (.ok (v, next)) →
      SkipSpace input next ≠ input.length →
      ParseRunes input = .error ⟨SkipSpace input next, "not terminated"⟩) := by
  constructor
  · intro input hws
    have hlt : ∀ b ∈ input, b < 0x80 := by
      intro b hb
      rcases hws b hb with h|h|h|h <;> omega
    have hskip : SkipSpace input 0 = input.length :=
      SkipSpace_all input (fun b hb => by
        rcases hws b hb with h|h|h|h <;> simp [isSpaceRune, h]) 0
    have hany : ParseAnyF (input.length + 1) input 0
        = some (.error ⟨input.length, "expect something, got EOS"⟩) := by
      rw [ParseAnyF]
      simp [hskip]
    have hpr : ParseRunes input = .error ⟨input.length, "expect something, got EOS"⟩ := by
      unfold ParseRunes ParseRunesCore
      rw [hany]
      rfl
    unfold Parse
    simp only [Decode_ascii input hlt, hpr]
  · intro input v next hany hne
    unfold ParseRunes ParseRunesCore
    rw [hany]
    simp [hne]

theorem parse_empty_trailing_errors_witness :
    Parse [32] = .error (.parse ⟨1, "expect something, got EOS"⟩) ∧
    ParseRunes (strRunes "1x") = .error ⟨1, "not terminated"⟩ := by
  constructor
  · exact parse_empty_trailing_errors.1 [32] (by decide)
  · have h := parse_empty_trailing_errors.2 (strRunes "1x") (.int 1) 1 rfl (by decide)
    exact h


/-! ### C7: iteration order of the unordered literal trials is irrelevant -/

/-- At every position, at most one of the two literals can be consumed. -/
def ConsumeExcl (t1 t2 : String) : Prop :=
  ∀ (input : List Nat) (cur : Nat),
    ¬((Consume input cur t1).2 = none ∧ (Consume input cur t2).2 = none)

theorem ConsumeExcl_symm (t1 t2 : String) (h : ConsumeExcl t1 t2) :
    ConsumeExcl t2 t1 := by
  intro input cur hc
  exact h input cur ⟨hc.2, hc.1⟩

/-- Literals beginning with different code points are exclusive. -/
theorem ConsumeExcl_of_first (t1 t2 : String)
    (h1 : 0 < (strRunes t1).length) (h2 : 0 < (strRunes t2).length)
    (hne : (strRunes t1).getD 0 0 ≠ (strRunes t2).getD 0 0) : ConsumeExcl t1 t2 := by
  intro input cur h
  obtain ⟨ha, hb⟩ := h
  rcases hc1 : Consume input cur t1 with ⟨n1, r1⟩
  rcases hc2 : Consume input cur t2 with ⟨n2, r2⟩
  rw [hc1] at ha
  rw [hc2] at hb
  simp only [] at ha hb
  subst ha
  subst hb
  have f1 := Consume_ok_first input cur t1 n1 hc1 h1
  have f2 := Consume_ok_first input cur t2 n2 hc2 h2
  rw [f1] at f2
  exact hne f2

theorem boolNullTrial_perm {o1 o2 : List (String × JsonValue)} (hperm : o1.Perm o2) :
    o1.Pairwise (fun p q => ConsumeExcl p.1 q.1) →
    ∀ (input : List Nat) (cur next : Nat),
      boolNullTrial o1 input cur next = boolNullTrial o2 input cur next := by
  induction hperm with
  | nil =>
    intro _ input cur next
    rfl
  | cons x hrest ih =>
    intro hpw input cur next
    obtain ⟨lit, v⟩ := x
    rw [boolNullTrial, boolNullTrial]
    rcases hc : Consume input cur lit with ⟨n2, r2⟩
    match r2 with
    | none => rfl
    | some e =>
      exact ih (List.pairwise_cons.mp hpw).2 input cur n2
  | swap x y l =>
    intro hpw input cur next
    -- here o1 = y :: x :: l and o2 = x :: y :: l
    obtain ⟨xl, xv⟩ := x
    obtain ⟨yl, yv⟩ := y
    have hxy : ConsumeExcl yl xl := by
      have := (List.pairwise_cons.mp hpw).1 (xl, xv) (by simp)
      exact this
    rcases hcy : Consume input cur yl with ⟨ny, ry⟩
    rcases hcx : Consume input cur xl with ⟨nx, rx⟩
    rcases ry with _ | ey <;> rcases rx with _ | ex
    · exact absurd ⟨by rw [hcy], by rw [hcx]⟩ (hxy input cur)
    · simp only [boolNullTrial, hcy, hcx]
    · simp only [boolNullTrial, hcy, hcx]
    · have hnx : nx = SkipSpace input cur := Consume_fail input cur xl nx ex hcx
      have hny : ny = SkipSpace input cur := Consume_fail input cur yl ny ey hcy
      simp only [boolNullTrial, hcy, hcx, hnx, hny]
  | trans h1 h2 ih1 ih2 =>
    intro hpw input cur next
    have hsymm : Symmetric (fun p q : String × JsonValue => ConsumeExcl p.1 q.1) :=
      fun p q hpq => ConsumeExcl_symm _ _ hpq
    have hpw2 := hpw.perm h1 (fun h => ConsumeExcl_symm _ _ h)
    rw [ih1 hpw input cur next, ih2 hpw2 input cur next]

theorem signTrial_perm {o1 o2 : List (String × Bool)} (hperm : o1.Perm o2) :
    o1.Pairwise (fun p q => ConsumeExcl p.1 q.1) →
    ∀ (input : List Nat) (next : Nat),
      signTrial o1 input next = signTrial o2 input next := by
  induction hperm with
  | nil =>
    intro _ input next
    rfl
  | cons x hrest ih =>
    intro hpw input next
    obtain ⟨lit, v⟩ := x
    rw [signTrial, signTrial]
    rcases hc : Consume input next lit with ⟨n2, r2⟩
    match r2 with
    | none => rfl
    | some e =>
      exact ih (List.pairwise_cons.mp hpw).2 input n2
  | swap x y l =>
    intro hpw input next
    obtain ⟨xl, xv⟩ := x
    obtain ⟨yl, yv⟩ := y
    have hxy : ConsumeExcl yl xl := by
      have := (List.pairwise_cons.mp hpw).1 (xl, xv) (by simp)
      exact this
    rcases hcy : Consume input next yl with ⟨ny, ry⟩
    rcases hcx : Consume input next xl with ⟨nx, rx⟩
    rcases ry with _ | ey <;> rcases rx with _ | ex
    · exact absurd ⟨by rw [hcy], by rw [hcx]⟩ (hxy input next)
    · -- o1 consumes y directly; o2 fails on x, retries y from the skipped
      -- position, where Consume gives the same result
      have hnx : nx = SkipSpace input next := Consume_fail input next xl nx ex hcx
      have hcy2 : Consume input nx yl = (ny, none) := by
        rw [hnx, Consume_skip, hcy]
      simp only [signTrial, hcy, hcx, hcy2]
    · have hny : ny = SkipSpace input next := Consume_fail input next yl ny ey hcy
      have hcx2 : Consume input ny xl = (nx, none) := by
        rw [hny, Consume_skip, hcx]
      simp only [signTrial, hcy, hcx, hcx2]
    · have hnx : nx = SkipSpace input next := Consume_fail input next xl nx ex hcx
      have hny : ny = SkipSpace input next := Consume_fail input next yl ny ey hcy
      have hcy2 : Consume input (SkipSpace input next) yl = (ny, some ey) := by
        rw [Consume_skip, hcy]
      have hcx2 : Consume input (SkipSpace input next) xl = (nx, some ex) := by
        rw [Consume_skip, hcx]
      simp only [signTrial, hcy, hcx]
      rw [hnx, hny]
      simp only [signTrial, hcy2, hcx2, hnx, hny]
  | trans h1 h2 ih1 ih2 =>
    intro hpw input next
    have hsymm : Symmetric (fun p q : String × Bool => ConsumeExcl p.1 q.1) :=
      fun p q hpq => ConsumeExcl_symm _ _ hpq
    have hpw2 := hpw.perm h1 (fun h => ConsumeExcl_symm _ _ h)
    rw [ih1 hpw input next, ih2 hpw2 input next]

theorem boolNullOrder_pairwise :
    boolNullOrder.Pairwise (fun p q => ConsumeExcl p.1 q.1) := by
  unfold boolNullOrder
  refine List.Pairwise.cons ?_ (List.Pairwise.cons ?_ (List.Pairwise.cons ?_ List.Pairwise.nil))
  · intro y hy
    simp only [List.mem_cons, List.mem_singleton] at hy
    rcases hy with rfl | rfl | hy
    · exact ConsumeExcl_of_first _ _ (by decide) (by decide) (by decide)
    · exact ConsumeExcl_of_first _ _ (by decide) (by decide) (by decide)
    · exact absurd hy (by simp)
  · intro y hy
    simp only [List.mem_singleton] at hy
    subst hy
    exact ConsumeExcl_of_first _ _ (by decide) (by decide) (by decide)
  · intro y hy
    exact absurd hy (by simp)

theorem expSignOrder_pairwise :
    expSignOrder.Pairwise (fun p q => ConsumeExcl p.1 q.1) := by
  unfold expSignOrder
  refine List.Pairwise.cons ?_ (List.Pairwise.cons ?_ List.Pairwise.nil)
  · intro y hy
    simp only [List.mem_singleton] at hy
    subst hy
    exact ConsumeExcl_of_first _ _ (by decide) (by decide) (by decide)
  · intro y hy
    exact absurd hy (by simp)

/-- C7: the result of the boolean/null keyword production and of the
exponent-sign trial does not depend on the order in which the unordered
literal sets are tried: for every permutation of the candidate list, the
returned value, next position, and error are identical. -/
theorem literal_trial_order_irrelevant :
    (∀ (order : List (String × JsonValue)), order.Perm boolNullOrder →
      ∀ (input : List Nat) (cur : Nat),
        ParseBoolNullW order input cur = ParseBoolNull input cur) ∧
    (∀ (order : List (String × Bool)), order.Perm expSignOrder →
      ∀ (input : List Nat) (next : Nat),
        signTrial order input next = signTrial expSignOrder input next) := by
  constructor
  · intro order horder input cur
    have hsymm : Symmetric (fun p q : String × JsonValue => ConsumeExcl p.1 q.1) :=
      fun p q hpq => ConsumeExcl_symm _ _ hpq
    have hpw := boolNullOrder_pairwise.perm horder.symm (fun h => ConsumeExcl_symm _ _ h)
    exact boolNullTrial_perm horder hpw input cur 0
  · intro order horder input next
    have hsymm : Symmetric (fun p q : String × Bool => ConsumeExcl p.1 q.1) :=
      fun p q hpq => ConsumeExcl_symm _ _ hpq
    have hpw := expSignOrder_pairwise.perm horder.symm (fun h => ConsumeExcl_symm _ _ h)
    exact signTrial_perm horder hpw input next

theorem literal_trial_order_irrelevant_witness :
    ParseBoolNullW [("false", .bool false), ("true", .bool true), ("null", .null)]
        (strRunes "true") 0 = ParseBoolNull (strRunes "true") 0 ∧
    signTrial [("-", true), ("+", false)] (strRunes "+3") 0
      = signTrial expSignOrder (strRunes "+3") 0 := by
  constructor
  · exact literal_trial_order_irrelevant.1 _ (List.Perm.swap _ _ _) (strRunes "true") 0
  · exact literal_trial_order_irrelevant.2 _ (List.Perm.swap _ _ _) (strRunes "+3") 0


/-! ### C2: integer vs float selection is purely lexical -/

theorem isSpaceRune_cases (c : Nat) (h : isSpaceRune c = true) :
    c = 32 ∨ c = 9 ∨ c = 10 ∨ c = 13 := by
  simp [isSpaceRune] at h
  omega

theorem IsDigit_cases (c : Nat) (h : IsDigit c = true) : 48 ≤ c ∧ c ≤ 57 := by
  simpa [IsDigit] using h

theorem scanIntLoop_spec (input : List Nat) :
    ∀ (fuel next : Nat) (value : Int), fuel = input.length - next →
      next ≤ input.length →
      next ≤ (scanIntLoop input fuel next value).2 ∧
      (scanIntLoop input fuel next value).2 ≤ input.length ∧
      (∀ j, next ≤ j → j < (scanIntLoop input fuel next value).2 →
        IsDigit (input.getD j 0) = true) := by
  intro fuel
  induction fuel with
  | zero =>
    intro next value hf hle
    rw [scanIntLoop]
    exact ⟨le_refl _, by omega, fun j h1 h2 => by omega⟩
  | succ fuel ih =>
    intro next value hf hle
    rw [scanIntLoop]
    by_cases hc : next < input.length ∧ IsDigit (input.getD next 0) = true
    · rw [if_pos hc]
      have hrec := ih (next+1) (wrap64 (wrap64 (value * 10) + ((input.getD next 0 : Int) - 48)))
        (by omega) (by omega)
      refine ⟨by omega, hrec.2.1, fun j h1 h2 => ?_⟩
      by_cases hj : j = next
      · subst hj
        exact hc.2
      · exact hrec.2.2 j (by omega) h2
    · rw [if_neg hc]
      exact ⟨le_refl _, by omega, fun j h1 h2 => by omega⟩

theorem scanIntLoop_advance (input : List Nat) (fuel next : Nat) (value : Int)
    (hf : fuel = input.length - next)
    (hc : next < input.length) (hd : IsDigit (input.getD next 0) = true) :
    next + 1 ≤ (scanIntLoop input fuel next value).2 := by
  match fuel with
  | 0 => omega
  | fuel + 1 =>
    rw [scanIntLoop, if_pos ⟨hc, hd⟩]
    exact (scanIntLoop_spec input fuel (next+1) _ (by omega) (by omega)).1

theorem ScanInt_ok (input : List Nat) (cur : Nat) (v : Int) (n : Nat)
    (h : ScanInt input cur = .ok (v, n)) :
    cur < n ∧ n ≤ input.length ∧ cur < input.length ∧
    (∀ j, cur ≤ j → j < n → IsDigit (input.getD j 0) = true) := by
  unfold ScanInt at h
  split at h
  · rename_i hc
    have hn : n = (scanIntLoop input (input.length - cur) cur 0).2 := by
      have := congrArg (fun r => match r with | Except.ok (p : Int × Nat) => p.2 | _ => n) h
      simpa using this.symm
    have hspec := scanIntLoop_spec input (input.length - cur) cur 0 rfl (by omega)
    have hadv := scanIntLoop_advance input (input.length - cur) cur 0 rfl hc.1 hc.2
    rw [← hn] at hspec hadv
    exact ⟨by omega, hspec.2.1, hc.1, hspec.2.2⟩
  · exact absurd h (by simp)

theorem fracLoop_spec (input : List Nat) :
    ∀ (fuel next : Nat) (frac scale : FQ), fuel = input.length - next →
      next ≤ input.length →
      next ≤ (fracLoop input fuel next frac scale).2 ∧
      (fracLoop input fuel next frac scale).2 ≤ input.length ∧
      (∀ j, next ≤ j → j < (fracLoop input fuel next frac scale).2 →
        IsDigit (input.getD j 0) = true) := by
  intro fuel
  induction fuel with
  | zero =>
    intro next frac scale hf hle
    rw [fracLoop]
    exact ⟨le_refl _, by omega, fun j h1 h2 => by omega⟩
  | succ fuel ih =>
    intro next frac scale hf hle
    rw [fracLoop]
    by_cases hc : next < input.length ∧ IsDigit (input.getD next 0) = true
    · rw [if_pos hc]
      have hrec := ih (next+1) (frac.add ((FQ.ofInt ((input.getD next 0 : Int) - 48)).div scale))
        (scale.mul (FQ.ofInt 10)) (by omega) (by omega)
      refine ⟨by omega, hrec.2.1, fun j h1 h2 => ?_⟩
      by_cases hj : j = next
      · subst hj
        exact hc.2
      · exact hrec.2.2 j (by omega) h2
    · rw [if_neg hc]
      exact ⟨le_refl _, by omega, fun j h1 h2 => by omega⟩

/-- Span facts for the minus-sign trial `Consume input cur "-"`. -/
theorem Consume_minus_spec (input : List Nat) (cur : Nat) (hle : cur ≤ input.length) :
    cur ≤ (Consume input cur "-").1 ∧ (Consume input cur "-").1 ≤ input.length ∧
    (∀ j, cur ≤ j → j < (Consume input cur "-").1 →
      isSpaceRune (input.getD j 0) = true ∨ input.getD j 0 = 45) := by
  rcases hm : Consume input cur "-" with ⟨n, r⟩
  match r with
  | some e =>
    have := Consume_fail input cur "-" n e hm
    subst this
    refine ⟨SkipSpace_ge input cur hle, SkipSpace_le input cur, fun j h1 h2 => ?_⟩
    exact Or.inl (SkipSpace_ws input cur j h1 h2)
  | none =>
    have hok := Consume_ok input cur "-" n hm
    have hlen1 : (strRunes "-").length = 1 := rfl
    rw [hlen1] at hok
    have hchar := Consume_ok_first input cur "-" n hm (by rw [hlen1]; omega)
    have hskl := SkipSpace_le input cur
    have hskg := SkipSpace_ge input cur hle
    refine ⟨by omega, by omega, fun j h1 h2 => ?_⟩
    by_cases hj : j < SkipSpace input cur
    · exact Or.inl (SkipSpace_ws input cur j h1 hj)
    · have : j = SkipSpace input cur := by omega
      subst this
      rw [hchar]
      exact Or.inr rfl

/-- Span facts for the two-literal exponent-sign trial. -/
theorem signTrial_spec (input : List Nat) (start : Nat) (hle : start ≤ input.length) :
    start ≤ (signTrial expSignOrder input start).2 ∧
    (signTrial expSignOrder input start).2 ≤ input.length ∧
    (∀ j, start ≤ j → j < (signTrial expSignOrder input start).2 →
      isSpaceRune (input.getD j 0) = true ∨ input.getD j 0 = 43 ∨ input.getD j 0 = 45) := by
  have hskl := SkipSpace_le input start
  have hskg := SkipSpace_ge input start hle
  have hws := SkipSpace_ws input start
  rcases hp : Consume input start "+" with ⟨n1, r1⟩
  match r1 with
  | none =>
    have hok := Consume_ok input start "+" n1 hp
    have hlen1 : (strRunes "+").length = 1 := rfl
    rw [hlen1] at hok
    have hchar := Consume_ok_first input start "+" n1 hp (by rw [hlen1]; omega)
    have hres : signTrial expSignOrder input start = (false, n1) := by
      simp only [expSignOrder, signTrial, hp]
    rw [hres]
    refine ⟨by omega, by omega, fun j h1 h2 => ?_⟩
    by_cases hj : j < SkipSpace input start
    · exact Or.inl (hws j h1 hj)
    · have : j = SkipSpace input start := by omega
      subst this
      rw [hchar]
      exact Or.inr (Or.inl rfl)
  | some e1 =>
    have hn1 := Consume_fail input start "+" n1 e1 hp
    rcases hm : Consume input n1 "-" with ⟨n2, r2⟩
    have hm2 : Consume input start "-" = (n2, r2) := by
      rw [← hm, hn1, Consume_skip]
    match r2 with
    | none =>
      have hok := Consume_ok input start "-" n2 hm2
      have hlen1 : (strRunes "-").length = 1 := rfl
      rw [hlen1] at hok
      have hchar := Consume_ok_first input start "-" n2 hm2 (by rw [hlen1]; omega)
      have hres : signTrial expSignOrder input start = (true, n2) := by
        simp only [expSignOrder, signTrial, hp, hm]
      rw [hres]
      refine ⟨by omega, by omega, fun j h1 h2 => ?_⟩
      by_cases hj : j < SkipSpace input start
      · exact Or.inl (hws j h1 hj)
      · have : j = SkipSpace input start := by omega
        subst this
        rw [hchar]
        exact Or.inr (Or.inr rfl)
    | some e2 =>
      have hn2 := Consume_fail input start "-" n2 e2 hm2
      have hres : signTrial expSignOrder input start = (false, n2) := by
        simp only [expSignOrder, signTrial, hp, hm]
      rw [hres, hn2]
      refine ⟨by omega, by omega, fun j h1 h2 => ?_⟩
      exact Or.inl (hws j h1 h2)


theorem SkipSpace_of_ge (input : List Nat) (cur : Nat) (h : input.length ≤ cur) :
    SkipSpace input cur = input.length := by
  show skipLoop input (input.length - cur) cur = input.length
  rw [Nat.sub_eq_zero_of_le h, skipLoop]

theorem ParseNumFrac_ok (input : List Nat) (next1 : Nat) (isf : Bool) (fq : FQ)
    (next2 : Nat) (hlen : next1 ≤ input.length)
    (h : ParseNumFrac input next1 = .ok (isf, fq, next2)) :
    next1 ≤ next2 ∧ next2 ≤ input.length ∧
    (isf = true → input.getD next1 0 = 46 ∧ next1 < next2) ∧
    (isf = false → next2 = next1) := by
  unfold ParseNumFrac at h
  split at h
  · rename_i hdot
    split at h
    · rename_i hdig
      simp only [Except.ok.injEq, Prod.mk.injEq] at h
      obtain ⟨hisf, _, hn2⟩ := h
      have hspec := fracLoop_spec input (input.length - (next1+1)) (next1+1)
        ⟨0,1⟩ ⟨10,1⟩ rfl (by omega)
      rw [hn2] at hspec
      exact ⟨by omega, hspec.2.1, fun _ => ⟨hdot.2, by omega⟩,
        fun hf => absurd hisf.symm (by rw [hf]; simp)⟩
    · exact absurd h (by simp)
  · simp only [Except.ok.injEq, Prod.mk.injEq] at h
    obtain ⟨hisf, _, hn2⟩ := h
    exact ⟨by omega, by omega, fun ht => absurd hisf.symm (by rw [ht]; simp),
      fun _ => hn2.symm⟩

theorem ParseNumExp_ok (input : List Nat) (isf0 : Bool) (next2 : Nat) (isf hasexp : Bool)
    (e : Int) (next3 : Nat) (hlen : next2 ≤ input.length)
    (h : ParseNumExp input isf0 next2 = .ok (isf, hasexp, e, next3)) :
    next2 ≤ next3 ∧ next3 ≤ input.length ∧
    (hasexp = true → (input.getD next2 0 = 101 ∨ input.getD next2 0 = 69) ∧ next2 < next3) ∧
    (hasexp = false → next3 = next2 ∧ isf = isf0) ∧
    (isf = true ↔ (isf0 = true ∨ hasexp = true)) := by
  unfold ParseNumExp at h
  rcases hst : signTrial expSignOrder input (next2 + 1) with ⟨stneg, stn⟩
  split at h
  · rename_i hcond
    simp only [hst] at h
    split at h
    · exact absurd h (by simp)
    · rename_i e0 n4 hscan
      simp only [Except.ok.injEq, Prod.mk.injEq] at h
      obtain ⟨hisf, hhe, _, hn3⟩ := h
      have hsign := signTrial_spec input (next2 + 1) (by omega)
      simp only [hst] at hsign
      have hsc := ScanInt_ok input stn e0 n4 hscan
      refine ⟨by omega, by omega, fun _ => ⟨hcond.2, by omega⟩,
        fun hf => absurd hhe.symm (by rw [hf]; simp), ?_⟩
      rw [← hisf]
      simp
      exact Or.inr hhe.symm
  · simp only [Except.ok.injEq, Prod.mk.injEq] at h
    obtain ⟨hisf, hhe, _, hn3⟩ := h
    refine ⟨by omega, by omega, fun ht => absurd hhe.symm (by rw [ht]; simp),
      fun _ => ⟨hn3.symm, hisf.symm⟩, ?_⟩
    rw [← hisf, ← hhe]
    simp

/-- C2: for every successful run of the number production, the result is
the Integer variant exactly when the consumed span contains no decimal
point and no exponent marker — a purely lexical criterion, independent of
the number's magnitude; and parsing "[1,2.5,-3e2]" yields the array
[Integer 1, Float 5/2, Float -300]. -/
theorem parseNum_intFloat_lexical :
    (∀ (input : List Nat) (cur : Nat) (v : JsonValue) (next : Nat),
      ParseNum input cur = .ok (v, next) →
      ((∃ n, v = JsonValue.int n) ↔
        (∀ i, cur ≤ i → i < next →
          input.getD i 0 ≠ 46 ∧ input.getD i 0 ≠ 101 ∧ input.getD i 0 ≠ 69))) ∧
    Parse (strRunes "[1,2.5,-3e2]")
      = .ok (.arr [.int 1, .float ⟨5, 2⟩, .float ⟨-300, 1⟩]) := by
  refine ⟨?_, rfl⟩
  intro input cur v next h
  rcases hm : Consume input cur "-" with ⟨next0, mres⟩
  simp only [ParseNum, hm] at h
  by_cases hlen0 : input.length ≤ next0
  · rw [if_pos hlen0] at h
    exact absurd h (by simp)
  rw [if_neg hlen0] at h
  push_neg at hlen0
  have hcurlen : cur ≤ input.length := by
    by_contra hgt
    push_neg at hgt
    have hsk : SkipSpace input cur = input.length := SkipSpace_of_ge input cur (by omega)
    rcases mres with _ | e
    · have hok := Consume_ok input cur "-" next0 hm
      have h21 := hok.2.1
      rw [hsk] at h21
      have hl1 : (strRunes "-").length = 1 := rfl
      omega
    · have := Consume_fail input cur "-" next0 e hm
      rw [hsk] at this
      omega
  have hmsp := Consume_minus_spec input cur hcurlen
  rw [hm] at hmsp
  have hms1 : cur ≤ next0 := hmsp.1
  have hms3 : ∀ j, cur ≤ j → j < next0 →
      isSpaceRune (input.getD j 0) = true ∨ input.getD j 0 = 45 := hmsp.2.2
  -- integer part: both branches give a strictly advanced cursor and a
  -- digit-only span
  have hint : ∀ (whole : Int) (next1 : Nat),
      (if input.getD next0 0 = 48 then Except.ok ((0:Int), next0 + 1)
       else ScanInt input next0) = .ok (whole, next1) →
      next0 < next1 ∧ next1 ≤ input.length ∧
      (∀ j, next0 ≤ j → j < next1 → 48 ≤ input.getD j 0 ∧ input.getD j 0 ≤ 57) := by
    intro whole next1 hw
    split at hw
    · rename_i hz
      simp only [Except.ok.injEq, Prod.mk.injEq] at hw
      obtain ⟨_, hn1⟩ := hw
      refine ⟨by omega, by omega, fun j h1 h2 => ?_⟩
      have : j = next0 := by omega
      subst this
      rw [hz]
      omega
    · have := ScanInt_ok input next0 whole next1 hw
      exact ⟨this.1, this.2.1, fun j h1 h2 =>
        IsDigit_cases _ (this.2.2.2 j h1 h2)⟩
  -- walk the remaining stages
  split at h
  · exact absurd h (by simp)
  rename_i whole next1 hw
  obtain ⟨h01, h1len, hdig⟩ := hint whole next1 hw
  split at h
  · exact absurd h (by simp)
  rename_i isf0 frac next2 hfrac
  obtain ⟨h12, h2len, hisf0t, hisf0f⟩ := ParseNumFrac_ok input next1 isf0 frac next2 h1len hfrac
  split at h
  · exact absurd h (by simp)
  rename_i isf hasexp expnum next3 hexp
  obtain ⟨h23, h3len, hexpt, hexpf, hisfiff⟩ :=
    ParseNumExp_ok input isf0 next2 isf hasexp expnum next3 h2len hexp
  split at h
  · -- integer result
    rename_i hisf
    simp only [Except.ok.injEq, Prod.mk.injEq] at h
    obtain ⟨hv, hn⟩ := h
    have hisf0 : isf0 = false := by
      rcases isf0 with _ | _
      · rfl
      · rw [hisf] at hisfiff
        simp at hisfiff
    have hhe : hasexp = false := by
      rcases hasexp with _ | _
      · rfl
      · rw [hisf] at hisfiff
        simp at hisfiff
    have hn32 := hexpf hhe
    have hn21 := hisf0f hisf0
    constructor
    · intro _ i hi1 hi2
      rw [← hn] at hi2
      rw [hn32.1, hn21] at hi2
      by_cases hilt : i < next0
      · rcases hms3 i hi1 hilt with hws | h45
        · rcases isSpaceRune_cases _ hws with h|h|h|h <;> omega
        · omega
      · have := hdig i (by omega) hi2
        omega
    · intro _
      exact ⟨_, hv.symm⟩
  · -- float result
    rename_i hisf
    simp only [Except.ok.injEq, Prod.mk.injEq] at h
    obtain ⟨hv, hn⟩ := h
    have hisft : isf = true := by
      rcases isf with _ | _
      · exact absurd rfl hisf
      · rfl
    constructor
    · intro hex
      obtain ⟨n, hnn⟩ := hex
      rw [← hv] at hnn
      exact absurd hnn (by simp)
    · intro hclean
      exfalso
      rcases hisfiff.mp hisft with hf0 | hhe
      · have hfacts := hisf0t hf0
        have := hclean next1 (by omega) (by omega)
        exact this.1 hfacts.1
      · have hfacts := hexpt hhe
        have := hclean next2 (by omega) (by omega)
        rcases hfacts.1 with h101 | h69
        · exact this.2.1 h101
        · exact this.2.2 h69

theorem parseNum_intFloat_lexical_witness :
    (∃ n, JsonValue.int 7 = JsonValue.int n) ↔
      (∀ i, 0 ≤ i → i < 1 →
        (strRunes "7").getD i 0 ≠ 46 ∧ (strRunes "7").getD i 0 ≠ 101 ∧
        (strRunes "7").getD i 0 ≠ 69) :=
  parseNum_intFloat_lexical.1 (strRunes "7") 0 (.int 7) 1 rfl


/-! ### C8: termination infrastructure — every successful production
strictly advances the cursor and stays within the input -/

theorem Consume_ok_pos_bounds (input : List Nat) (cur : Nat) (tok : String) (n : Nat)
    (h : Consume input cur tok = (n, none)) (htok : 0 < (strRunes tok).length) :
    cur < n ∧ n ≤ input.length ∧ cur ≤ input.length := by
  have hok := Consume_ok input cur tok n h
  have hcl : cur ≤ input.length := by
    by_contra hgt
    push_neg at hgt
    have hsk := SkipSpace_of_ge input cur (by omega)
    have := hok.2.1
    rw [hsk] at this
    omega
  have hge := SkipSpace_ge input cur hcl
  have hle := SkipSpace_le input cur
  exact ⟨by omega, by omega, hcl⟩

theorem ScanHex_ok_le (input : List Nat) (cur : Nat) (v : Nat)
    (h : ScanHex input cur = .ok v) : cur + 4 ≤ input.length := by
  unfold ScanHex at h
  split at h
  · exact absurd h (by simp)
  · omega

theorem ParseEscape_ok_bounds (input : List Nat) (cur : Nat) (c n : Nat)
    (h : ParseEscape input cur = .ok (c, n)) : cur < n ∧ n ≤ input.length := by
  simp only [ParseEscape] at h
  split at h
  · exact absurd h (by simp)
  rename_i hcur
  push_neg at hcur
  by_cases h1 : input.getD cur 0 = 34 ∨ input.getD cur 0 = 92 ∨ input.getD cur 0 = 47
  · rw [if_pos h1] at h
    simp only [Except.ok.injEq, Prod.mk.injEq] at h
    omega
  rw [if_neg h1] at h
  by_cases h2 : input.getD cur 0 = 98
  · rw [if_pos h2] at h
    simp only [Except.ok.injEq, Prod.mk.injEq] at h
    omega
  rw [if_neg h2] at h
  by_cases h3 : input.getD cur 0 = 102
  · rw [if_pos h3] at h
    simp only [Except.ok.injEq, Prod.mk.injEq] at h
    omega
  rw [if_neg h3] at h
  by_cases h4 : input.getD cur 0 = 110
  · rw [if_pos h4] at h
    simp only [Except.ok.injEq, Prod.mk.injEq] at h
    omega
  rw [if_neg h4] at h
  by_cases h5 : input.getD cur 0 = 114
  · rw [if_pos h5] at h
    simp only [Except.ok.injEq, Prod.mk.injEq] at h
    omega
  rw [if_neg h5] at h
  by_cases h6 : input.getD cur 0 = 116
  · rw [if_pos h6] at h
    simp only [Except.ok.injEq, Prod.mk.injEq] at h
    omega
  rw [if_neg h6] at h
  by_cases h7 : input.getD cur 0 = 117
  · rw [if_pos h7] at h
    rcases hscan : ScanHex input (cur + 1) with e | v
    · rw [hscan] at h
      exact absurd h (by simp)
    · rw [hscan] at h
      have := ScanHex_ok_le input (cur + 1) v hscan
      simp only [Except.ok.injEq, Prod.mk.injEq] at h
      omega
  · rw [if_neg h7] at h
    exact absurd h (by simp)

theorem ParseStringLoop_ok_bounds (input : List Nat) :
    ∀ (fuel : Nat) (val : List Nat) (pos : Nat) (s : List Nat) (n : Nat),
      ParseStringLoop input fuel val pos = .ok (s, n) →
      pos < n ∧ n ≤ input.length := by
  intro fuel
  induction fuel with
  | zero =>
    intro val pos s n h
    rw [ParseStringLoop] at h
    exact absurd h (by simp)
  | succ fuel ih =>
    intro val pos s n h
    rw [ParseStringLoop] at h
    by_cases hpos : pos < input.length
    · rw [if_pos hpos] at h
      by_cases h34 : input.getD pos 0 = 34
      · rw [if_pos h34] at h
        simp only [Except.ok.injEq, Prod.mk.injEq] at h
        omega
      rw [if_neg h34] at h
      by_cases h92 : input.getD pos 0 = 92
      · rw [if_pos h92] at h
        rcases hesc : ParseEscape input (pos + 1) with e | p
        · rw [hesc] at h
          exact absurd h (by simp)
        · obtain ⟨c2, n2⟩ := p
          rw [hesc] at h
          have hb := ParseEscape_ok_bounds input (pos + 1) c2 n2 hesc
          have := ih _ _ _ _ h
          omega
      rw [if_neg h92] at h
      by_cases hne : IsNoEscape (input.getD pos 0) = true
      · rw [if_pos hne] at h
        have := ih _ _ _ _ h
        omega
      · rw [if_neg hne] at h
        exact absurd h (by simp)
    · rw [if_neg hpos] at h
      exact absurd h (by simp)

theorem ParseString_ok_bounds (input : List Nat) (cur : Nat) (s : List Nat) (n : Nat)
    (h : ParseString input cur = .ok (s, n)) :
    cur < n ∧ n ≤ input.length := by
  unfold ParseString at h
  rcases hq : Consume input cur "\"" with ⟨q, rq⟩
  rw [hq] at h
  match rq with
  | some e => exact absurd h (by simp)
  | none =>
    have hb := Consume_ok_pos_bounds input cur "\"" q hq (by decide)
    have := ParseStringLoop_ok_bounds input (input.length + 1) [] q s n h
    omega

theorem boolNullTrial_ok_bounds (input : List Nat) (cur : Nat) :
    ∀ (order : List (String × JsonValue)) (next0 : Nat) (v : JsonValue) (n : Nat),
      (∀ p ∈ order, 0 < (strRunes p.1).length) →
      boolNullTrial order input cur next0 = .ok (v, n) →
      cur < n ∧ n ≤ input.length := by
  intro order
  induction order with
  | nil =>
    intro next0 v n _ h
    rw [boolNullTrial] at h
    exact absurd h (by simp)
  | cons p rest ih =>
    intro next0 v n hpos h
    obtain ⟨lit, pv⟩ := p
    rw [boolNullTrial] at h
    rcases hc : Consume input cur lit with ⟨n2, r2⟩
    rw [hc] at h
    match r2 with
    | none =>
      simp only [Except.ok.injEq, Prod.mk.injEq] at h
      have hb := Consume_ok_pos_bounds input cur lit n2 hc (hpos (lit, pv) (by simp))
      omega
    | some e =>
      exact ih n2 v n (fun q hq => hpos q (by simp [hq])) h

theorem ParseBoolNull_ok_bounds (input : List Nat) (cur : Nat) (v : JsonValue) (n : Nat)
    (h : ParseBoolNull input cur = .ok (v, n)) : cur < n ∧ n ≤ input.length := by
  exact boolNullTrial_ok_bounds input cur boolNullOrder 0 v n (by decide) h

theorem ParseNum_ok_bounds (input : List Nat) (cur : Nat) (v : JsonValue) (n : Nat)
    (h : ParseNum input cur = .ok (v, n)) : cur < n ∧ n ≤ input.length := by
  rcases hm : Consume input cur "-" with ⟨next0, mres⟩
  simp only [ParseNum, hm] at h
  by_cases hlen0 : input.length ≤ next0
  · rw [if_pos hlen0] at h
    exact absurd h (by simp)
  rw [if_neg hlen0] at h
  push_neg at hlen0
  have hcurlen : cur ≤ input.length := by
    by_contra hgt
    push_neg at hgt
    have hsk : SkipSpace input cur = input.length := SkipSpace_of_ge input cur (by omega)
    rcases mres with _ | e
    · have hok := Consume_ok input cur "-" next0 hm
      have h21 := hok.2.1
      rw [hsk] at h21
      have hl1 : (strRunes "-").length = 1 := rfl
      omega
    · have := Consume_fail input cur "-" next0 e hm
      rw [hsk] at this
      omega
  have hmsp := Consume_minus_spec input cur hcurlen
  rw [hm] at hmsp
  have hms1 : cur ≤ next0 := hmsp.1
  have hint : ∀ (whole : Int) (next1 : Nat),
      (if input.getD next0 0 = 48 then Except.ok ((0:Int), next0 + 1)
       else ScanInt input next0) = .ok (whole, next1) →
      next0 < next1 ∧ next1 ≤ input.length := by
    intro whole next1 hw
    split at hw
    · simp only [Except.ok.injEq, Prod.mk.injEq] at hw
      omega
    · have := ScanInt_ok input next0 whole next1 hw
      omega
  split at h
  · exact absurd h (by simp)
  rename_i whole next1 hw
  obtain ⟨h01, h1len⟩ := hint whole next1 hw
  split at h
  · exact absurd h (by simp)
  rename_i isf0 frac next2 hfrac
  obtain ⟨h12, h2len, _, _⟩ := ParseNumFrac_ok input next1 isf0 frac next2 h1len hfrac
  split at h
  · exact absurd h (by simp)
  rename_i isf hasexp expnum next3 hexp
  obtain ⟨h23, h3len, _, _, _⟩ :=
    ParseNumExp_ok input isf0 next2 isf hasexp expnum next3 h2len hexp
  split at h
  · simp only [Except.ok.injEq, Prod.mk.injEq] at h
    omega
  · simp only [Except.ok.injEq, Prod.mk.injEq] at h
    omega


theorem ParseKeyValue_ok_bounds (anyP : ItemP) (input : List Nat)
    (hany : ∀ p v n, anyP input p = some (.ok (v, n)) → p < n ∧ n ≤ input.length)
    (cur : Nat) (v : JsonValue) (n : Nat)
    (h : ParseKeyValue anyP input cur = some (.ok (v, n))) :
    cur < n ∧ n ≤ input.length := by
  unfold ParseKeyValue at h
  rcases hs : ParseString input cur with e | p
  · simp only [hs] at h
    exact absurd h (by simp)
  obtain ⟨key, n1⟩ := p
  simp only [hs] at h
  have hb1 := ParseString_ok_bounds input cur key n1 hs
  rcases hc : Consume input n1 ":" with ⟨n2, r2⟩
  simp only [hc] at h
  match r2 with
  | some e => exact absurd h (by simp)
  | none =>
    have hb2 := Consume_ok_pos_bounds input n1 ":" n2 hc (by decide)
    rcases ha : anyP input n2 with _ | res
    · simp only [ha] at h
      exact absurd h (by simp)
    · simp only [ha] at h
      match res with
      | .error e => exact absurd h (by simp)
      | .ok (vv, n3) =>
        have hb3 := hany n2 vv n3 ha
        simp only [Option.some.injEq, Except.ok.injEq, Prod.mk.injEq] at h
        omega

theorem ParseALLoop_ok_bounds (itemP : ItemP) (input : List Nat) (closeB : String)
    (hclose : 0 < (strRunes closeB).length)
    (hitem : ∀ p v n, itemP input p = some (.ok (v, n)) → p < n ∧ n ≤ input.length) :
    ∀ (lf : Nat) (arr : List JsonValue) (pos : Nat) (v : JsonValue) (n : Nat),
      ParseALLoop itemP input closeB lf arr pos = some (.ok (v, n)) →
      pos < n ∧ n ≤ input.length := by
  intro lf
  induction lf with
  | zero =>
    intro arr pos v n h
    rw [ParseALLoop] at h
    exact absurd h (by simp)
  | succ lf ih =>
    intro arr pos v n h
    rw [ParseALLoop] at h
    rcases hi : itemP input pos with _ | res
    · simp only [hi] at h
      exact absurd h (by simp)
    simp only [hi] at h
    match res with
    | .error e => exact absurd h (by simp)
    | .ok (sv, n1) =>
      have hb1 := hitem pos sv n1 hi
      rcases hcm : Consume input n1 "," with ⟨n2, r2⟩
      simp only [hcm] at h
      match r2 with
      | none =>
        have hb2 := Consume_ok_pos_bounds input n1 "," n2 hcm (by decide)
        have := ih _ _ _ _ h
        omega
      | some e2 =>
        have hn2 := Consume_fail input n1 "," n2 e2 hcm
        have hskge : n1 ≤ n2 := by
          rw [hn2]
          exact SkipSpace_ge input n1 (by omega)
        rcases hcc : Consume input n2 closeB with ⟨n3, r3⟩
        simp only [hcc] at h
        match r3 with
        | some e3 => exact absurd h (by simp)
        | none =>
          have hb3 := Consume_ok_pos_bounds input n2 closeB n3 hcc hclose
          simp only [Option.some.injEq, Except.ok.injEq, Prod.mk.injEq] at h
          omega

theorem ParseArrayLike_ok_bounds (itemP : ItemP) (input : List Nat)
    (openB closeB : String) (hopen : 0 < (strRunes openB).length)
    (hclose : 0 < (strRunes closeB).length)
    (hitem : ∀ p v n, itemP input p = some (.ok (v, n)) → p < n ∧ n ≤ input.length)
    (cur : Nat) (v : JsonValue) (n : Nat)
    (h : ParseArrayLike itemP input cur openB closeB = some (.ok (v, n))) :
    cur < n ∧ n ≤ input.length := by
  unfold ParseArrayLike at h
  rcases ho : Consume input cur openB with ⟨n0, r0⟩
  simp only [ho] at h
  match r0 with
  | some e => exact absurd h (by simp)
  | none =>
    have hb0 := Consume_ok_pos_bounds input cur openB n0 ho hopen
    rcases hc : Consume input n0 closeB with ⟨n1, r1⟩
    simp only [hc] at h
    match r1 with
    | none =>
      have hb1 := Consume_ok_pos_bounds input n0 closeB n1 hc hclose
      simp only [Option.some.injEq, Except.ok.injEq, Prod.mk.injEq] at h
      omega
    | some e1 =>
      have hn1 := Consume_fail input n0 closeB n1 e1 hc
      have hge : n0 ≤ n1 := by
        rw [hn1]
        exact SkipSpace_ge input n0 (by omega)
      have := ParseALLoop_ok_bounds itemP input closeB hclose hitem
        (input.length + 1) [] n1 v n h
      omega

theorem ParseAnyF_ok_bounds : ∀ (fuel : Nat) (input : List Nat) (cur : Nat)
    (v : JsonValue) (n : Nat),
    ParseAnyF fuel input cur = some (.ok (v, n)) → cur < n ∧ n ≤ input.length := by
  intro fuel
  induction fuel with
  | zero =>
    intro input cur v n h
    rw [ParseAnyF] at h
    exact absurd h (by simp)
  | succ fuel ih =>
    intro input cur v n h
    simp only [ParseAnyF] at h
    by_cases heos : input.length ≤ SkipSpace input cur
    · rw [if_pos heos] at h
      exact absurd h (by simp)
    rw [if_neg heos] at h
    push_neg at heos
    have hcurle : cur ≤ input.length := by
      by_contra hgt
      push_neg at hgt
      rw [SkipSpace_of_ge input cur (by omega)] at heos
      omega
    have hge : cur ≤ SkipSpace input cur := SkipSpace_ge input cur hcurle
    by_cases hc1 : input.getD (SkipSpace input cur) 0 = 91
    · rw [if_pos hc1] at h
      unfold ParseArray at h
      have := ParseArrayLike_ok_bounds (ParseAnyF fuel) input "[" "]" (by decide) (by decide)
        (fun p vv nn hok => ih input p vv nn hok) (SkipSpace input cur) v n h
      omega
    rw [if_neg hc1] at h
    by_cases hc2 : input.getD (SkipSpace input cur) 0 = 123
    · rw [if_pos hc2] at h
      unfold ParseMap at h
      rcases hal : ParseArrayLike (ParseKeyValue (ParseAnyF fuel)) input
          (SkipSpace input cur) "\x7b" "\x7d" with _ | res
      · simp only [hal] at h
        exact absurd h (by simp)
      simp only [hal] at h
      match res with
      | .error e => exact absurd h (by simp)
      | .ok (v0, n0) =>
        have := ParseArrayLike_ok_bounds (ParseKeyValue (ParseAnyF fuel)) input
          "\x7b" "\x7d" (by decide) (by decide)
          (fun p vv nn hok => ParseKeyValue_ok_bounds (ParseAnyF fuel) input
            (fun q vq nq hq => ih input q vq nq hq) p vv nn hok)
          (SkipSpace input cur) v0 n0 hal
        simp only [Option.some.injEq, Except.ok.injEq, Prod.mk.injEq] at h
        omega
    rw [if_neg hc2] at h
    by_cases hc3 : input.getD (SkipSpace input cur) 0 = 34
    · rw [if_pos hc3] at h
      rcases hs : ParseString input (SkipSpace input cur) with e | p
      · simp only [hs] at h
        exact absurd h (by simp)
      · obtain ⟨sv, n1⟩ := p
        simp only [hs] at h
        have := ParseString_ok_bounds input (SkipSpace input cur) sv n1 hs
        simp only [Option.some.injEq, Except.ok.injEq, Prod.mk.injEq] at h
        omega
    rw [if_neg hc3] at h
    by_cases hc4 : (48 ≤ input.getD (SkipSpace input cur) 0 ∧
        input.getD (SkipSpace input cur) 0 ≤ 57) ∨ input.getD (SkipSpace input cur) 0 = 45
    · rw [if_pos hc4] at h
      simp only [Option.some.injEq] at h
      have := ParseNum_ok_bounds input (SkipSpace input cur) v n h
      omega
    rw [if_neg hc4] at h
    by_cases hc5 : input.getD (SkipSpace input cur) 0 = 116 ∨
        input.getD (SkipSpace input cur) 0 = 102 ∨ input.getD (SkipSpace input cur) 0 = 110
    · rw [if_pos hc5] at h
      simp only [Option.some.injEq] at h
      have := ParseBoolNull_ok_bounds input (SkipSpace input cur) v n h
      omega
    · rw [if_neg hc5] at h
      exact absurd h (by simp)


theorem ParseKeyValue_total (anyP : ItemP) (input : List Nat) (p : Nat)
    (hany_t : ∀ q, p < q → (anyP input q).isSome) :
    (ParseKeyValue anyP input p).isSome := by
  unfold ParseKeyValue
  rcases hs : ParseString input p with e | kp
  · simp [hs]
  obtain ⟨key, n1⟩ := kp
  have hb1 := ParseString_ok_bounds input p key n1 hs
  rcases hc : Consume input n1 ":" with ⟨n2, r2⟩
  match r2 with
  | some e => simp [hs, hc]
  | none =>
    have hb2 := Consume_ok_pos_bounds input n1 ":" n2 hc (by decide)
    have hsome := hany_t n2 (by omega)
    rcases ha : anyP input n2 with _ | res
    · rw [ha] at hsome
      exact absurd hsome (by simp)
    · match res with
      | .error e => simp [hs, hc, ha]
      | .ok (vv, n3) => simp [hs, hc, ha]

theorem ParseALLoop_total (itemP : ItemP) (input : List Nat) (closeB : String)
    (hitem_b : ∀ q v n, itemP input q = some (.ok (v, n)) → q < n ∧ n ≤ input.length)
    (base : Nat) (hitem_t : ∀ q, base < q → (itemP input q).isSome) :
    ∀ (lf pos : Nat) (arr : List JsonValue), base < pos → input.length - pos < lf →
      (ParseALLoop itemP input closeB lf arr pos).isSome := by
  intro lf
  induction lf with
  | zero =>
    intro pos arr hbase hfuel
    omega
  | succ lf ih =>
    intro pos arr hbase hfuel
    rw [ParseALLoop]
    have hsome := hitem_t pos hbase
    rcases hi : itemP input pos with _ | res
    · rw [hi] at hsome
      exact absurd hsome (by simp)
    match res with
    | .error e => simp [hi]
    | .ok (sv, n1) =>
      have hb1 := hitem_b pos sv n1 hi
      rcases hcm : Consume input n1 "," with ⟨n2, r2⟩
      match r2 with
      | none =>
        have hb2 := Consume_ok_pos_bounds input n1 "," n2 hcm (by decide)
        have hrec := ih n2 (arr ++ [sv]) (by omega) (by omega)
        simp only [hi, hcm]
        exact hrec
      | some e2 =>
        rcases hcc : Consume input n2 closeB with ⟨n3, r3⟩
        match r3 with
        | some e3 => simp [hi, hcm, hcc]
        | none => simp [hi, hcm, hcc]

theorem ParseArrayLike_total (itemP : ItemP) (input : List Nat)
    (openB closeB : String) (hopen : 0 < (strRunes openB).length)
    (hitem_b : ∀ q v n, itemP input q = some (.ok (v, n)) → q < n ∧ n ≤ input.length)
    (cur : Nat) (hitem_t : ∀ q, cur < q → (itemP input q).isSome) :
    (ParseArrayLike itemP input cur openB closeB).isSome := by
  unfold ParseArrayLike
  rcases ho : Consume input cur openB with ⟨n0, r0⟩
  match r0 with
  | some e => simp [ho]
  | none =>
    have hb0 := Consume_ok_pos_bounds input cur openB n0 ho hopen
    rcases hc : Consume input n0 closeB with ⟨n1, r1⟩
    match r1 with
    | none => simp [ho, hc]
    | some e1 =>
      have hn1 := Consume_fail input n0 closeB n1 e1 hc
      have hge : n0 ≤ n1 := by
        rw [hn1]
        exact SkipSpace_ge input n0 (by omega)
      have hloop := ParseALLoop_total itemP input closeB hitem_b cur hitem_t
        (input.length + 1) n1 [] (by omega) (by omega)
      simp only [ho, hc]
      exact hloop

theorem ParseAnyF_total : ∀ (fuel : Nat) (input : List Nat) (cur : Nat),
    input.length - cur < fuel → (ParseAnyF fuel input cur).isSome := by
  intro fuel
  induction fuel with
  | zero =>
    intro input cur h
    omega
  | succ fuel ih =>
    intro input cur hfuel
    simp only [ParseAnyF]
    by_cases heos : input.length ≤ SkipSpace input cur
    · rw [if_pos heos]
      simp
    rw [if_neg heos]
    push_neg at heos
    have hcurle : cur ≤ input.length := by
      by_contra hgt
      push_neg at hgt
      rw [SkipSpace_of_ge input cur (by omega)] at heos
      omega
    have hge : cur ≤ SkipSpace input cur := SkipSpace_ge input cur hcurle
    have hnextfuel : ∀ p, SkipSpace input cur < p → input.length - p < fuel := by
      intro p hp
      omega
    by_cases hc1 : input.getD (SkipSpace input cur) 0 = 91
    · rw [if_pos hc1]
      unfold ParseArray
      exact ParseArrayLike_total (ParseAnyF fuel) input "[" "]" (by decide)
        (fun q v n hq => ParseAnyF_ok_bounds fuel input q v n hq)
        (SkipSpace input cur)
        (fun q hq => ih input q (hnextfuel q hq))
    rw [if_neg hc1]
    by_cases hc2 : input.getD (SkipSpace input cur) 0 = 123
    · rw [if_pos hc2]
      unfold ParseMap
      have hal := ParseArrayLike_total (ParseKeyValue (ParseAnyF fuel)) input "\x7b" "\x7d"
        (by decide)
        (fun q v n hq => ParseKeyValue_ok_bounds (ParseAnyF fuel) input
          (fun p vv nn hp => ParseAnyF_ok_bounds fuel input p vv nn hp) q v n hq)
        (SkipSpace input cur)
        (fun q hq => ParseKeyValue_total (ParseAnyF fuel) input q
          (fun p hp => ih input p (hnextfuel p (by omega))))
      rcases hres : ParseArrayLike (ParseKeyValue (ParseAnyF fuel)) input
          (SkipSpace input cur) "\x7b" "\x7d" with _ | res
      · rw [hres] at hal
        exact absurd hal (by simp)
      · match res with
        | .error e => simp [hres]
        | .ok (v0, n0) => simp [hres]
    rw [if_neg hc2]
    by_cases hc3 : input.getD (SkipSpace input cur) 0 = 34
    · rw [if_pos hc3]
      simp
    rw [if_neg hc3]
    by_cases hc4 : (48 ≤ input.getD (SkipSpace input cur) 0 ∧
        input.getD (SkipSpace input cur) 0 ≤ 57) ∨ input.getD (SkipSpace input cur) 0 = 45
    · rw [if_pos hc4]
      simp
    rw [if_neg hc4]
    by_cases hc5 : input.getD (SkipSpace input cur) 0 = 116 ∨
        input.getD (SkipSpace input cur) 0 = 102 ∨ input.getD (SkipSpace input cur) 0 = 110
    · rw [if_pos hc5]
      simp
    · rw [if_neg hc5]
      simp

theorem ReadCode_ok_advance (buf : List Nat) (cur : Nat) (c n : Nat)
    (h : ReadCode buf cur = .ok (c, n)) : cur < n := by
  by_cases hcur : buf.length ≤ cur
  · unfold ReadCode at h
    rw [if_pos hcur] at h
    exact absurd h (by simp)
  push_neg at hcur
  rcases Nat.lt_or_ge (buf.getD cur 0) 0x80 with h1 | h1
  · rw [ReadCode_ascii buf cur hcur h1] at h
    simp only [Except.ok.injEq, Prod.mk.injEq] at h
    omega
  rcases Nat.lt_or_ge (buf.getD cur 0) 0xc0 with h2 | h2
  · rw [ReadCode_contByte buf cur hcur h1 h2] at h
    exact absurd h (by simp)
  rcases Nat.lt_or_ge (buf.getD cur 0) 0xe0 with h3 | h3
  · rw [ReadCode_len2 buf cur hcur h2 h3] at h
    split at h
    · exact absurd h (by simp)
    · simp only [Except.ok.injEq, Prod.mk.injEq] at h
      omega
  rcases Nat.lt_or_ge (buf.getD cur 0) 0xf0 with h4 | h4
  · rw [ReadCode_len3 buf cur hcur h3 h4] at h
    split at h
    · exact absurd h (by simp)
    · simp only [Except.ok.injEq, Prod.mk.injEq] at h
      omega
  rcases Nat.lt_or_ge (buf.getD cur 0) 0xf8 with h5 | h5
  · rw [ReadCode_len4 buf cur hcur h4 h5] at h
    split at h
    · exact absurd h (by simp)
    · simp only [Except.ok.injEq, Prod.mk.injEq] at h
      omega
  · rw [ReadCode_badLeader buf cur hcur h5] at h
    exact absurd h (by simp)

theorem DecodeAux_total : ∀ (fuel : Nat) (input : List Nat) (cur : Nat),
    input.length - cur ≤ fuel → (DecodeAux fuel input cur).isSome := by
  intro fuel
  induction fuel with
  | zero =>
    intro input cur h
    rw [DecodeAux, if_neg (by omega)]
    simp
  | succ fuel ih =>
    intro input cur h
    rw [DecodeAux]
    by_cases hcur : cur < input.length
    · rw [if_pos hcur]
      rcases hrc : ReadCode input cur with e | p
      · simp [hrc]
      · obtain ⟨code, nx⟩ := p
        have hadv := ReadCode_ok_advance input cur code nx hrc
        have hrec := ih input nx (by omega)
        rcases hda : DecodeAux fuel input nx with _ | res
        · rw [hda] at hrec
          exact absurd hrec (by simp)
        · match res with
          | .error e => simp [hrc, hda]
          | .ok rest => simp [hrc, hda]
    · rw [if_neg hcur]
      simp

/-- C8: every call of the fuelled cores behind `Parse` and `ParseRunes`
returns a result (a value or an error) — the recursion counters supplied
by the entry points (`input.length` for the decoder, `input.length + 1`
for the grammar) are always sufficient, because every production either
fails or advances the cursor strictly forward. -/
theorem parse_terminates :
    ∀ (bytes runes : List Nat),
      (DecodeAux bytes.length bytes 0).isSome ∧ (ParseRunesCore runes).isSome := by
  intro bytes runes
  constructor
  · exact DecodeAux_total bytes.length bytes 0 (by omega)
  · unfold ParseRunesCore
    have htot := ParseAnyF_total (runes.length + 1) runes 0 (by omega)
    rcases hany : ParseAnyF (runes.length + 1) runes 0 with _ | res
    · rw [hany] at htot
      exact absurd htot (by simp)
    · match res with
      | .error e => simp [hany]
      | .ok (v, next) =>
        simp only [hany]
        by_cases hne : SkipSpace runes next ≠ runes.length
        · rw [if_pos hne]
          simp
        · rw [if_neg hne]
          simp


end JsonGo
